import Mathlib

/-!
Verification development for a concurrent sorted doubly-linked list with
per-node tri-mode locks (files ConcurrentDoublyLinkedList.cpp/.h and
ReadMayWriteWriteLock.cpp/.h).

The lock (class Read_MayWrite_Write_Lock) is modelled by an explicit state
record; the condition variables of the wait queue are identified by fresh
natural-number ids (the identity of the shared_ptr<condition_variable>
objects), threads by natural numbers.  The blocking methods are modelled by
their state effect at the moment the internal mutex is held: an acquire is
split into its admission guard (the predicate of the condition-variable wait
loop) and its state update.

The list is modelled by a store of nodes addressed by list index; shared_ptr
fields become Option Nat addresses.  Sequential executions of the public
operations are modelled as state transformers that also emit the trace of
per-node lock calls the source performs, in source order.  Loops are given
explicit fuel; the fuel is sufficient on well-formed states (proved below),
and exhaustion returns none.
-/

/-! ## The tri-mode lock (ReadMayWriteWriteLock.cpp) -/

/-- Acquire modes of the lock: enum Operation of Read_MayWrite_Write_Lock. -/
inductive Read_MayWrite_Write_Lock.Operation where
  | READ
  | MAY_WRITE
  | WRITE
deriving DecidableEq

/-- One wait-queue entry: tuple<shared_ptr<condition_variable>, Operation,
unsigned int>.  The condition variable is represented by the id condId. -/
structure Read_MayWrite_Write_Lock.ConditionTuple where
  condId : Nat
  op : Read_MayWrite_Write_Lock.Operation
  count : Nat
deriving DecidableEq

/-- State of class Read_MayWrite_Write_Lock: the fields readersNumber,
isWriterHolding, mayWriterThreadId (none models the default thread::id()) and
threadQueue, plus the allocator nextCondId for fresh condition-variable ids. -/
structure Read_MayWrite_Write_Lock where
  readersNumber : Nat
  isWriterHolding : Bool
  mayWriterThreadId : Option Nat
  threadQueue : List Read_MayWrite_Write_Lock.ConditionTuple
  nextCondId : Nat
deriving DecidableEq

namespace Read_MayWrite_Write_Lock

/-- Lock::CanReaderAcquireLock. -/
def CanReaderAcquireLock (s : Read_MayWrite_Write_Lock) : Bool :=
  !s.isWriterHolding

/-- Lock::CanMayWriterAcquireLock. -/
def CanMayWriterAcquireLock (s : Read_MayWrite_Write_Lock) : Bool :=
  decide (s.mayWriterThreadId = none) && s.CanReaderAcquireLock

/-- Lock::CanWriterAcquireLock. -/
def CanWriterAcquireLock (s : Read_MayWrite_Write_Lock) : Bool :=
  decide (s.readersNumber = 0) && s.CanMayWriterAcquireLock

/-- Lock::CanAcquireLock. -/
def CanAcquireLock (s : Read_MayWrite_Write_Lock) (operation : Operation) : Bool :=
  match operation with
  | Operation.READ => s.CanReaderAcquireLock
  | Operation.MAY_WRITE => s.CanMayWriterAcquireLock
  | Operation.WRITE => s.CanWriterAcquireLock

/-- Lock::InsertConditionTuple: make a fresh condition variable and push the
tuple (condition, operation, 1) to the front (isVIP) or the back. -/
def InsertConditionTuple (s : Read_MayWrite_Write_Lock) (operation : Operation)
    (isVIP : Bool) : Read_MayWrite_Write_Lock :=
  let t : ConditionTuple := ⟨s.nextCondId, operation, 1⟩
  if isVIP then
    {s with threadQueue := t :: s.threadQueue, nextCondId := s.nextCondId + 1}
  else
    {s with threadQueue := s.threadQueue ++ [t], nextCondId := s.nextCondId + 1}

/-- Increment of the reader counter of the back tuple of the queue
(the ++readTupleCounter of Lock::ShouldThreadWait). -/
def incrBackCount : List ConditionTuple → List ConditionTuple
  | [] => []
  | [t] => [⟨t.condId, t.op, t.count + 1⟩]
  | t :: rest => t :: incrBackCount rest

/-- Lock::ShouldThreadWait.  Returns the boolean result together with the
updated state.  The switch on threadQueue.size() is rendered by the match:
size 0 checks CanAcquireLock; size 1 computes the special single-READ-entry
test and falls through; the default case leaves shouldThreadWait at its
initial value true.  A READ arrival that must wait behind a READ back tuple
coalesces into it (no insertion); every other waiter pushes a fresh tuple. -/
def ShouldThreadWait (s : Read_MayWrite_Write_Lock) (operation : Operation) :
    Bool × Read_MayWrite_Write_Lock :=
  match s.threadQueue with
  | [] =>
    if s.CanAcquireLock operation then (false, s)
    else (true, s.InsertConditionTuple operation false)
  | front :: rest =>
    let shouldThreadWait : Bool :=
      if rest.isEmpty then
        !(decide (operation = Operation.READ)) ||
          !(decide (front.op = Operation.READ)) || !(s.CanAcquireLock operation)
      else true
    let backTuple := (front :: rest).getLast (List.cons_ne_nil front rest)
    if operation = Operation.READ ∧ shouldThreadWait = true ∧
        backTuple.op = Operation.READ then
      (shouldThreadWait, {s with threadQueue := incrBackCount s.threadQueue})
    else if shouldThreadWait then
      (shouldThreadWait, s.InsertConditionTuple operation false)
    else
      (shouldThreadWait, s)

/-- State update of Lock::LockRead at admission (the ++readersNumber). -/
def LockReadEffect (s : Read_MayWrite_Write_Lock) : Read_MayWrite_Write_Lock :=
  {s with readersNumber := s.readersNumber + 1}

/-- State update of Lock::LockMayWrite at admission, for caller thread self. -/
def LockMayWriteEffect (s : Read_MayWrite_Write_Lock) (self : Nat) :
    Read_MayWrite_Write_Lock :=
  {s with readersNumber := s.readersNumber + 1, mayWriterThreadId := some self}

/-- State update of Lock::LockWrite at admission. -/
def LockWriteEffect (s : Read_MayWrite_Write_Lock) : Read_MayWrite_Write_Lock :=
  {s with isWriterHolding := true}

/-- Lock::UpgradeLock up to its possible wait: the caller's shared hold and
may-writer reservation are released, then either the write lock is taken
immediately (result flag false) or a VIP WRITE tuple is pushed to the front
of the queue and the caller must wait (result flag true). -/
def UpgradeLock (s : Read_MayWrite_Write_Lock) : Read_MayWrite_Write_Lock × Bool :=
  let s1 := {s with readersNumber := s.readersNumber - 1, mayWriterThreadId := none}
  if s1.CanWriterAcquireLock then
    ({s1 with isWriterHolding := true}, false)
  else
    (s1.InsertConditionTuple Operation.WRITE true, true)

/-- The tail of Lock::UpgradeLock after the wait loop exits (the waiting
thread is admitted once CanWriterAcquireLock holds): pop_front of the VIP
tuple, then isWriterHolding is set. -/
def UpgradeLockFinish (s : Read_MayWrite_Write_Lock) : Read_MayWrite_Write_Lock :=
  {s with threadQueue := s.threadQueue.tail, isWriterHolding := true}

/-- Lock::ReleaseSharedLock for caller thread self: --readersNumber, then the
may-writer identity is cleared when the caller is the registered may-writer.
TryNotifyingNext only signals condition variables and changes no state. -/
def ReleaseSharedLock (s : Read_MayWrite_Write_Lock) (self : Nat) :
    Read_MayWrite_Write_Lock :=
  let s1 := {s with readersNumber := s.readersNumber - 1}
  if s1.mayWriterThreadId = some self then
    {s1 with mayWriterThreadId := none}
  else
    s1

/-- Lock::ReleaseExclusiveLock. -/
def ReleaseExclusiveLock (s : Read_MayWrite_Write_Lock) : Read_MayWrite_Write_Lock :=
  {s with isWriterHolding := false}

/-- The predicate of the wait loop in Lock::Wait: a waiter parked on the
condition variable cid requesting mode operation may leave the loop exactly
when its tuple is at the front of the queue and its mode is grantable. -/
def WaitAdmissible (s : Read_MayWrite_Write_Lock) (cid : Nat)
    (operation : Operation) : Prop :=
  (s.threadQueue.head?.map ConditionTuple.condId) = some cid ∧
    s.CanAcquireLock operation = true

/-- All queued condition-variable ids were allocated earlier than nextCondId
(holds in every reachable state; used to express freshness of new tuples). -/
def QueueIdsBelow (s : Read_MayWrite_Write_Lock) : Prop :=
  ∀ t ∈ s.threadQueue, t.condId < s.nextCondId

/-- The state invariant of the lock: a writer excludes both any registered
may-writer and any shared holder. -/
def LockInv (s : Read_MayWrite_Write_Lock) : Prop :=
  s.isWriterHolding = true → (s.mayWriterThreadId = none ∧ s.readersNumber = 0)

/-- The state of a freshly constructed lock. -/
def initLock : Read_MayWrite_Write_Lock := ⟨0, false, none, [], 0⟩

/-- One correctly used lock operation, at the moment the internal mutex is
held.  Guards are the admission predicates of the source (the condition of
each wait loop, and the asserted preconditions of the release and upgrade
methods).  The evolution of the wait queue and of the id allocator is left
unconstrained (universally quantified): admission order restricts which of
these states occur but never affects the three scalar fields. -/
inductive LockStep : Read_MayWrite_Write_Lock → Read_MayWrite_Write_Lock → Prop where
  | lockRead (s : Read_MayWrite_Write_Lock) (q : List ConditionTuple) (n : Nat) :
      s.CanReaderAcquireLock = true →
      LockStep s {s.LockReadEffect with threadQueue := q, nextCondId := n}
  | lockMayWrite (s : Read_MayWrite_Write_Lock) (t : Nat)
      (q : List ConditionTuple) (n : Nat) :
      s.CanMayWriterAcquireLock = true →
      LockStep s {s.LockMayWriteEffect t with threadQueue := q, nextCondId := n}
  | lockWrite (s : Read_MayWrite_Write_Lock) (q : List ConditionTuple) (n : Nat) :
      s.CanWriterAcquireLock = true →
      LockStep s {s.LockWriteEffect with threadQueue := q, nextCondId := n}
  | upgradeEnter (s : Read_MayWrite_Write_Lock) (t : Nat)
      (q : List ConditionTuple) (n : Nat) :
      s.mayWriterThreadId = some t → 0 < s.readersNumber →
      LockStep s {(s.UpgradeLock).1 with threadQueue := q, nextCondId := n}
  | upgradeFinish (s : Read_MayWrite_Write_Lock) (q : List ConditionTuple) (n : Nat) :
      s.CanWriterAcquireLock = true →
      LockStep s {s.UpgradeLockFinish with threadQueue := q, nextCondId := n}
  | releaseShared (s : Read_MayWrite_Write_Lock) (t : Nat)
      (q : List ConditionTuple) (n : Nat) :
      0 < s.readersNumber →
      LockStep s {s.ReleaseSharedLock t with threadQueue := q, nextCondId := n}
  | releaseExclusive (s : Read_MayWrite_Write_Lock) (q : List ConditionTuple) (n : Nat) :
      s.isWriterHolding = true →
      LockStep s {s.ReleaseExclusiveLock with threadQueue := q, nextCondId := n}

/-- Lock states reachable from a fresh lock by correctly used operations. -/
def ReachableLock (s : Read_MayWrite_Write_Lock) : Prop :=
  Relation.ReflTransGen LockStep initLock s

/-- A lock with no holder whose queue still carries one waiting READ tuple
(this arises when a writer released and notified a batch of queued readers
that has not yet left the wait loop). -/
def c3state : Read_MayWrite_Write_Lock :=
  ⟨0, false, none, [⟨0, Operation.READ, 1⟩], 1⟩

/-- A lock held by may-writer thread 7 and one further reader, with one
queued READ waiter. -/
def c4state : Read_MayWrite_Write_Lock :=
  ⟨2, false, some 7, [⟨0, Operation.READ, 1⟩], 1⟩

/-- A lock held by may-writer thread 7 alone (readersNumber = 1). -/
def c4stateFast : Read_MayWrite_Write_Lock :=
  ⟨1, false, some 7, [], 0⟩

/-- A lock held by may-writer thread 5 and one further reader. -/
def c6state : Read_MayWrite_Write_Lock :=
  ⟨2, false, some 5, [], 0⟩

end Read_MayWrite_Write_Lock

/-! ## The list (ConcurrentDoublyLinkedList.cpp) -/

/-- struct ConcurrentDoublyLinkedList::Node.  The two shared_ptr<Node> fields
become optional addresses into the node store (none models nullptr). -/
structure ConcurrentDoublyLinkedList.Node where
  key : Int
  data : Char
  prevPtr : Option Nat
  nextPtr : Option Nat
  isNodeActive : Bool
deriving DecidableEq

/-- The node store of one ConcurrentDoublyLinkedList: node addresses are
indices into nodes, head and tail hold the sentinel addresses.  (The per-node
Read_MayWrite_Write_Lock objects are pure synchronisation state; in the
sequential model the lock calls an operation performs are reported as an
event trace instead, see LockEvent.) -/
structure ConcurrentDoublyLinkedList where
  nodes : List ConcurrentDoublyLinkedList.Node
  head : Nat
  tail : Nat
deriving DecidableEq

/-- One call on some node's lock, in source order, tagged with the node's
address.  This is the trace a sequential execution of a list operation emits. -/
inductive LockEvent where
  | lockRead (a : Nat)
  | lockMayWrite (a : Nat)
  | lockWrite (a : Nat)
  | upgradeLock (a : Nat)
  | releaseShared (a : Nat)
  | releaseExclusive (a : Nat)
deriving DecidableEq

/-- Effect of one lock event on the multiset of node addresses whose lock the
executing thread currently holds in a shared mode (READ or MAY_WRITE):
shared acquires add the address, ReleaseSharedLock removes it, and
UpgradeLock consumes the shared hold (turning it exclusive). -/
def procSharedEvent (M : Multiset Nat) : LockEvent → Multiset Nat
  | LockEvent.lockRead a => a ::ₘ M
  | LockEvent.lockMayWrite a => a ::ₘ M
  | LockEvent.releaseShared a => M.erase a
  | LockEvent.upgradeLock a => M.erase a
  | LockEvent.lockWrite _ => M
  | LockEvent.releaseExclusive _ => M

/-- The shared-mode holds after processing a whole event trace. -/
def procShared (M : Multiset Nat) (tr : List LockEvent) : Multiset Nat :=
  tr.foldl procSharedEvent M

namespace ConcurrentDoublyLinkedList

/-- Dereference of a node address (defaulting outside the store; the default
is never reached on well-formed states). -/
def getNode (s : ConcurrentDoublyLinkedList) (a : Nat) : Node :=
  s.nodes.getD a ⟨0, '0', none, none, false⟩

/-- Overwrite of the node at an address. -/
def setNode (s : ConcurrentDoublyLinkedList) (a : Nat) (n : Node) :
    ConcurrentDoublyLinkedList :=
  {s with nodes := s.nodes.set a n}

/-- The key stored at an address. -/
def nkey (s : ConcurrentDoublyLinkedList) (a : Nat) : Int := (s.getNode a).key

/-- List::AdvanceAndLockReadMayWrite: one advance of the pair (prev, next)
toward the tail.  In read mode the source releases the lock of the node it
stands on and only then acquires the next node's lock in READ; in may-write
mode it releases the old prev and acquires the new next in MAY_WRITE.  The
returned events are in source order.  none models the (unreachable on
well-formed states) nullptr dereference of next. -/
def AdvanceAndLockReadMayWrite (s : ConcurrentDoublyLinkedList) (prev next : Nat)
    (isRead : Bool) : Option (Nat × Nat × List LockEvent) :=
  if isRead then
    match (s.getNode next).nextPtr with
    | none => none
    | some nn =>
      some (next, nn, [LockEvent.releaseShared next, LockEvent.lockRead nn])
  else
    match (s.getNode next).nextPtr with
    | none => none
    | some nn =>
      some (next, nn, [LockEvent.releaseShared prev, LockEvent.lockMayWrite nn])

/-- The while loop of List::FindKey, with explicit fuel. -/
def findKeyLoop (s : ConcurrentDoublyLinkedList) (key : Int) (isRead : Bool) :
    Nat → Nat → Nat → Option (Nat × Nat × List LockEvent)
  | 0, _, _ => none
  | Nat.succ fuel, prev, next =>
    if (s.nkey next < key ∧ next ≠ s.tail) ∨ next = s.head then
      match s.AdvanceAndLockReadMayWrite prev next isRead with
      | none => none
      | some (p2, n2, ev) =>
        match findKeyLoop s key isRead fuel p2 n2 with
        | none => none
        | some (p3, n3, ev2) => some (p3, n3, ev ++ ev2)
    else
      some (prev, next, [])

/-- List::FindKey: from position (whose lock the caller holds), walk forward
to the first candidate with key at least the searched key or the tail.  The
returned pair is (updated position, candidate), together with the emitted
lock events. -/
def FindKey (s : ConcurrentDoublyLinkedList) (position : Nat) (key : Int)
    (isRead : Bool) : Option (Nat × Nat × List LockEvent) :=
  if isRead then
    findKeyLoop s key isRead (s.nodes.length + 1) position position
  else
    match (s.getNode position).nextPtr with
    | none => none
    | some nx =>
      match findKeyLoop s key isRead (s.nodes.length + 1) position nx with
      | none => none
      | some (p2, c2, ev) => some (p2, c2, LockEvent.lockMayWrite nx :: ev)

/-- The splice of List::InsertFromPosition: allocate the new node (its
address is the append position s.nodes.length), then
prev->nextPtr = the new node and next->prevPtr = the new node. -/
def spliceNewNode (s : ConcurrentDoublyLinkedList) (prev next : Nat)
    (key : Int) (data : Char) : ConcurrentDoublyLinkedList :=
  let newAddr := s.nodes.length
  let s1 : ConcurrentDoublyLinkedList :=
    {s with nodes := s.nodes ++ [⟨key, data, some prev, some next, true⟩]}
  let s2 := s1.setNode prev {s1.getNode prev with nextPtr := some newAddr}
  s2.setNode next {s2.getNode next with prevPtr := some newAddr}

/-- List::InsertFromPosition: find the insertion point from position, then
either splice a freshly allocated node in under upgraded (WRITE) locks, or
report a duplicate and release both shared locks. -/
def InsertFromPosition (s : ConcurrentDoublyLinkedList) (position : Nat)
    (key : Int) (data : Char) :
    Option (Bool × ConcurrentDoublyLinkedList × List LockEvent) :=
  match s.FindKey position key false with
  | none => none
  | some (prev, next, ev) =>
    if (s.getNode next).key ≠ key ∨ next = s.tail then
      some (true, s.spliceNewNode prev next key data,
        ev ++ [LockEvent.upgradeLock prev, LockEvent.upgradeLock next,
               LockEvent.releaseExclusive prev, LockEvent.releaseExclusive next])
    else
      some (false, s,
        ev ++ [LockEvent.releaseShared prev, LockEvent.releaseShared next])

/-- List::InsertHead. -/
def InsertHead (s : ConcurrentDoublyLinkedList) (key : Int) (data : Char) :
    Option (Bool × ConcurrentDoublyLinkedList × List LockEvent) :=
  match s.InsertFromPosition s.head key data with
  | none => none
  | some (b, s2, ev) => some (b, s2, LockEvent.lockMayWrite s.head :: ev)

/-- The backward-probing while loop of List::InsertTail, with explicit fuel:
step back while the current node's key is too large (and the node is not the
head) or the current node has been unlinked.  Each step releases the node the
walk stands on before locking its predecessor in MAY_WRITE. -/
def insertTailLoop (s : ConcurrentDoublyLinkedList) (key : Int) :
    Nat → Nat → Option (Nat × List LockEvent)
  | 0, _ => none
  | Nat.succ fuel, prev =>
    if (s.nkey prev > key ∧ prev ≠ s.head) ∨ ¬(s.getNode prev).isNodeActive = true then
      match (s.getNode prev).prevPtr with
      | none => none
      | some p2 =>
        match insertTailLoop s key fuel p2 with
        | none => none
        | some (pf, ev) =>
          some (pf, LockEvent.releaseShared prev :: LockEvent.lockMayWrite p2 :: ev)
    else
      some (prev, [])

/-- List::InsertTail: snapshot tail.prevPtr under a READ lock, walk backward
to the first admissible position, then check for a duplicate and otherwise
insert through InsertFromPosition. -/
def InsertTail (s : ConcurrentDoublyLinkedList) (key : Int) (data : Char) :
    Option (Bool × ConcurrentDoublyLinkedList × List LockEvent) :=
  match (s.getNode s.tail).prevPtr with
  | none => none
  | some p0 =>
    let ev0 := [LockEvent.lockRead s.tail, LockEvent.releaseShared s.tail,
                LockEvent.lockMayWrite p0]
    match s.insertTailLoop key (s.nodes.length + 1) p0 with
    | none => none
    | some (prev, ev1) =>
      if prev ≠ s.head ∧ (s.getNode prev).key = key then
        some (false, s, ev0 ++ ev1 ++ [LockEvent.releaseShared prev])
      else
        match s.InsertFromPosition prev key data with
        | none => none
        | some (b, s2, ev2) => some (b, s2, ev0 ++ ev1 ++ ev2)

/-- The splice of List::Delete: prev->nextPtr = the victim's successor nx,
nx->prevPtr = prev, and the victim del is marked inactive.  The victim's own
pointer fields are not touched. -/
def spliceOutNode (s : ConcurrentDoublyLinkedList) (prev del nx : Nat) :
    ConcurrentDoublyLinkedList :=
  let s1 := s.setNode prev {s.getNode prev with nextPtr := some nx}
  let s2 := s1.setNode nx {s1.getNode nx with prevPtr := some prev}
  s2.setNode del {s2.getNode del with isNodeActive := false}

/-- List::Delete: find the candidate from head; when it matches, upgrade both
locks, lock the successor in WRITE, splice the victim out and mark it
inactive; otherwise release both shared locks. -/
def Delete (s : ConcurrentDoublyLinkedList) (key : Int) :
    Option (Bool × ConcurrentDoublyLinkedList × List LockEvent) :=
  match s.FindKey s.head key false with
  | none => none
  | some (prev, next, ev) =>
    let ev := LockEvent.lockMayWrite s.head :: ev
    if (s.getNode next).key = key ∧ next ≠ s.tail then
      match (s.getNode next).nextPtr with
      | none => none
      | some nx =>
        some (true, s.spliceOutNode prev next nx,
          ev ++ [LockEvent.upgradeLock prev, LockEvent.upgradeLock next,
                 LockEvent.lockWrite nx, LockEvent.releaseExclusive prev,
                 LockEvent.releaseExclusive next, LockEvent.releaseExclusive nx])
    else
      some (false, s,
        ev ++ [LockEvent.releaseShared prev, LockEvent.releaseShared next])

/-- List::Search (with a valid out-pointer): read-mode find from head; the
result is positive exactly when the candidate carries the key, is still
active and is not the tail, and then the out-parameter receives its data. -/
def Search (s : ConcurrentDoublyLinkedList) (key : Int) :
    Option (Bool × Option Char × List LockEvent) :=
  match s.FindKey s.head key true with
  | none => none
  | some (_, node, ev) =>
    let nn := s.getNode node
    let result : Bool :=
      decide (nn.key = key) && nn.isNodeActive && decide (node ≠ s.tail)
    some (result, if result then some nn.data else none,
      LockEvent.lockRead s.head :: ev ++ [LockEvent.releaseShared node])

/-- The state built by the ConcurrentDoublyLinkedList constructor: the two
sentinels at addresses 0 (head) and 1 (tail), linked to each other. -/
def initialList : ConcurrentDoublyLinkedList :=
  ⟨[⟨0, '0', none, some 1, true⟩, ⟨1, '0', some 0, none, true⟩], 0, 1⟩

/-- The adjacency relation of the chain: a's forward pointer names b and b's
back pointer names a. -/
def link (s : ConcurrentDoublyLinkedList) (a b : Nat) : Prop :=
  (s.getNode a).nextPtr = some b ∧ (s.getNode b).prevPtr = some a

instance (s : ConcurrentDoublyLinkedList) : DecidableRel (s.link) := fun a b =>
  inferInstanceAs (Decidable ((s.getNode a).nextPtr = some b ∧
    (s.getNode b).prevPtr = some a))

/-- The address chain of the list: head sentinel, the internal nodes mid in
order, tail sentinel. -/
def chainOf (s : ConcurrentDoublyLinkedList) (mid : List Nat) : List Nat :=
  s.head :: mid ++ [s.tail]

/-- Well-formedness of a quiescent list state, with internal chain mid: the
chain addresses are distinct and in range, consecutive chain nodes are
doubly linked, internal keys strictly increase, and every chain node is
active. -/
def Wf (s : ConcurrentDoublyLinkedList) (mid : List Nat) : Prop :=
  (s.chainOf mid).Nodup ∧
  (∀ a ∈ s.chainOf mid, a < s.nodes.length) ∧
  List.Chain' s.link (s.chainOf mid) ∧
  List.Pairwise (fun a b => s.nkey a < s.nkey b) mid ∧
  (∀ a ∈ s.chainOf mid, (s.getNode a).isNodeActive = true)

/-- One public list operation (the demo driver's alphabet). -/
inductive ListOp where
  | insertHead (key : Int) (data : Char)
  | insertTail (key : Int) (data : Char)
  | delete (key : Int)
  | search (key : Int)

/-- The state after one sequential operation.  Search never changes the
state; for the mutators the new state is the one the operation returns (fuel
exhaustion, which is proved unreachable from well-formed states, keeps the
state). -/
def applyOp (s : ConcurrentDoublyLinkedList) (op : ListOp) :
    ConcurrentDoublyLinkedList :=
  match op with
  | ListOp.insertHead k d =>
    match s.InsertHead k d with
    | some (_, s2, _) => s2
    | none => s
  | ListOp.insertTail k d =>
    match s.InsertTail k d with
    | some (_, s2, _) => s2
    | none => s
  | ListOp.delete k =>
    match s.Delete k with
    | some (_, s2, _) => s2
    | none => s
  | ListOp.search _ => s

/-- The state after a sequence of sequential operations on a fresh list. -/
def run (ops : List ListOp) : ConcurrentDoublyLinkedList :=
  ops.foldl applyOp initialList

/-- The list state after InsertHead 5 'a' on a fresh list (scenario S1): the
node carrying 5 sits at address 2 between the sentinels. -/
def s1State : ConcurrentDoublyLinkedList :=
  match initialList.InsertHead 5 'a' with
  | some (_, s2, _) => s2
  | none => initialList

/-- The list state after the subsequent Delete 5 (scenario S1). -/
def s1StateDel : ConcurrentDoublyLinkedList :=
  match s1State.Delete 5 with
  | some (_, s2, _) => s2
  | none => s1State

/-- A well-formed two-element list: head (0) -> 10 (address 2) -> 20
(address 3) -> tail (1). -/
def twoNodeList : ConcurrentDoublyLinkedList :=
  ⟨[⟨0, '0', none, some 2, true⟩, ⟨1, '0', some 3, none, true⟩,
    ⟨10, 'a', some 0, some 3, true⟩, ⟨20, 'b', some 2, some 1, true⟩], 0, 1⟩

end ConcurrentDoublyLinkedList

/-! ## Lock theorems -/

namespace Read_MayWrite_Write_Lock

theorem incrBackCount_length :
    ∀ l : List ConditionTuple, (incrBackCount l).length = l.length := by
  intro l
  induction l with
  | nil => rfl
  | cons t rest ih =>
    cases rest with
    | nil => rfl
    | cons u rest2 =>
      simp only [incrBackCount, List.length_cons]
      simp only [incrBackCount, List.length_cons] at ih
      omega

theorem shouldThreadWait_fst (s : Read_MayWrite_Write_Lock) (operation : Operation)
    (front : ConditionTuple) (rest : List ConditionTuple)
    (hq : s.threadQueue = front :: rest) :
    (s.ShouldThreadWait operation).1 =
      (if rest.isEmpty then
        !(decide (operation = Operation.READ)) ||
          !(decide (front.op = Operation.READ)) || !(s.CanAcquireLock operation)
      else true) := by
  simp only [ShouldThreadWait, hq]
  split
  all_goals split
  all_goals first | rfl | (split <;> rfl)

theorem singleton_read_iff (front : ConditionTuple) :
    (∃ cid cnt, [front] = [(⟨cid, Operation.READ, cnt⟩ : ConditionTuple)]) ↔
      front.op = Operation.READ := by
  cases front with
  | mk cid op cnt =>
    constructor
    · rintro ⟨c2, n2, h⟩
      simp only [List.cons.injEq, ConditionTuple.mk.injEq, and_true] at h
      exact h.2.1
    · intro h
      exact ⟨cid, cnt, by simp only at h; rw [h]⟩

/-- C3 (amended): an acquire request proceeds without queueing if and only if
the lock state immediately permits its mode and in addition the wait queue is
empty or the request is a READ and the queue consists of exactly one READ
tuple; a READ request that must wait while the queue is non-empty with a READ
tail tuple increments that tuple's counter and creates no new tuple; every
other request that must wait pushes a fresh tuple with count 1 to the back.
(The original claim required an empty queue in the first part; the
single-READ-tuple fast path of ShouldThreadWait refutes that, see the
counterexample.) -/
theorem C3_queueing_discipline (s : Read_MayWrite_Write_Lock) (operation : Operation) :
    ((s.ShouldThreadWait operation).1 = false ↔
      (s.CanAcquireLock operation = true ∧
        (s.threadQueue = [] ∨
          (operation = Operation.READ ∧
            ∃ cid cnt, s.threadQueue = [⟨cid, Operation.READ, cnt⟩])))) ∧
    ((s.ShouldThreadWait operation).1 = true →
      operation = Operation.READ →
      (∀ bt, s.threadQueue.getLast? = some bt → bt.op = Operation.READ) →
      s.threadQueue ≠ [] →
      (s.ShouldThreadWait operation).2.threadQueue = incrBackCount s.threadQueue ∧
      (s.ShouldThreadWait operation).2.threadQueue.length = s.threadQueue.length) ∧
    ((s.ShouldThreadWait operation).1 = true →
      (operation ≠ Operation.READ ∨
        (∀ bt, s.threadQueue.getLast? = some bt → bt.op ≠ Operation.READ)) →
      (s.ShouldThreadWait operation).2.threadQueue =
        s.threadQueue ++ [⟨s.nextCondId, operation, 1⟩]) := by
  refine ⟨?_, ?_, ?_⟩
  · rcases hq : s.threadQueue with _ | ⟨front, rest⟩
    · by_cases hca : s.CanAcquireLock operation = true
      · simp [ShouldThreadWait, hq, hca]
      · simp [ShouldThreadWait, hq, hca]
    · rw [shouldThreadWait_fst s operation front rest hq]
      cases rest with
      | nil =>
        split
        · constructor
          · intro h
            simp only [Bool.or_eq_false_iff, Bool.not_eq_false',
              decide_eq_true_eq] at h
            obtain ⟨h1, h2, h3⟩ :
                operation = Operation.READ ∧ front.op = Operation.READ ∧
                  s.CanAcquireLock operation = true := by tauto
            exact ⟨h3, Or.inr ⟨h1, (singleton_read_iff front).2 h2⟩⟩
          · rintro ⟨hcan, h | ⟨hop, hex⟩⟩
            · cases h
            · have hfop := (singleton_read_iff front).1 hex
              subst hop
              simp [hfop, hcan]
        · simp_all
      | cons u rest2 =>
        simp
  · intro hw hop hback hne
    rcases hq : s.threadQueue with _ | ⟨front, rest⟩
    · exact absurd hq hne
    · have hfst := shouldThreadWait_fst s operation front rest hq
      rw [hw] at hfst
      have hbt : ((front :: rest).getLast (List.cons_ne_nil front rest)).op =
          Operation.READ := by
        apply hback
        rw [hq]
        exact List.getLast?_eq_getLast_of_ne_nil (List.cons_ne_nil front rest)
      have hcond : operation = Operation.READ ∧
          (if rest.isEmpty then
            !(decide (operation = Operation.READ)) ||
              !(decide (front.op = Operation.READ)) || !(s.CanAcquireLock operation)
          else true) = true ∧
          ((front :: rest).getLast (List.cons_ne_nil front rest)).op =
            Operation.READ := ⟨hop, hfst.symm, hbt⟩
      simp only [ShouldThreadWait, hq]
      rw [if_pos hcond]
      exact ⟨rfl, incrBackCount_length (front :: rest)⟩
  · intro hw hother
    rcases hq : s.threadQueue with _ | ⟨front, rest⟩
    · by_cases hca : s.CanAcquireLock operation = true
      · simp only [ShouldThreadWait, hq, hca] at hw
        simp at hw
      · simp only [ShouldThreadWait, hq]
        rw [if_neg hca]
        simp [InsertConditionTuple, hq]
    · have hfst := shouldThreadWait_fst s operation front rest hq
      rw [hw] at hfst
      have hcond : ¬(operation = Operation.READ ∧
          (if rest.isEmpty then
            !(decide (operation = Operation.READ)) ||
              !(decide (front.op = Operation.READ)) || !(s.CanAcquireLock operation)
          else true) = true ∧
          ((front :: rest).getLast (List.cons_ne_nil front rest)).op =
            Operation.READ) := by
        rcases hother with h | h
        · rintro ⟨h1, -, -⟩
          exact h h1
        · rintro ⟨-, -, h3⟩
          refine h ((front :: rest).getLast (List.cons_ne_nil front rest)) ?_ h3
          rw [hq]
          exact List.getLast?_eq_getLast_of_ne_nil (List.cons_ne_nil front rest)
      simp only [ShouldThreadWait, hq]
      rw [if_neg hcond, if_pos hfst.symm]
      simp [InsertConditionTuple, hq]

/-- C3 counterexample: on a lock with no holder whose queue consists of one
waiting READ tuple, a READ request proceeds without queueing (ShouldThreadWait
returns false and changes nothing) although the wait queue is not empty.
This refutes the claimed equivalence of proceeding without queueing with the
conjunction of immediate grantability and an empty queue. -/
theorem C3_counterexample :
    (c3state.ShouldThreadWait Operation.READ).1 = false ∧
    c3state.CanAcquireLock Operation.READ = true ∧
    c3state.threadQueue ≠ [] ∧
    (c3state.ShouldThreadWait Operation.READ).2 = c3state := by decide

theorem C3_queueing_discipline_witness :
    (c3state.ShouldThreadWait Operation.MAY_WRITE).2.threadQueue =
      c3state.threadQueue ++ [⟨c3state.nextCondId, Operation.MAY_WRITE, 1⟩] :=
  (C3_queueing_discipline c3state Operation.MAY_WRITE).2.2 (by decide)
    (Or.inl (by decide))

/-- C4: UpgradeLock releases the may-writer reservation atomically with the
acquisition attempt; when the caller was the only shared holder
(readersNumber = 1) it acquires WRITE immediately without enqueueing;
otherwise a WRITE tuple is inserted at the front of the wait queue, no
previously queued waiter passes the wait-loop predicate while it is there,
and as soon as the remaining readers drain (CanWriterAcquireLock) the
upgrading thread acquires WRITE and pops its VIP tuple, restoring the queue
ahead of every other waiter. -/
theorem C4_upgrade_priority (s : Read_MayWrite_Write_Lock) (t : Nat)
    (hmw : s.mayWriterThreadId = some t) (hr : 0 < s.readersNumber)
    (hw : s.isWriterHolding = false) (hfresh : s.QueueIdsBelow) :
    ((s.UpgradeLock).1.mayWriterThreadId = none ∧
      (s.UpgradeLock).1.readersNumber = s.readersNumber - 1) ∧
    (s.readersNumber = 1 →
      (s.UpgradeLock).2 = false ∧ (s.UpgradeLock).1.isWriterHolding = true ∧
      (s.UpgradeLock).1.threadQueue = s.threadQueue) ∧
    (1 < s.readersNumber →
      (s.UpgradeLock).2 = true ∧
      (s.UpgradeLock).1.isWriterHolding = false ∧
      (s.UpgradeLock).1.threadQueue =
        ⟨s.nextCondId, Operation.WRITE, 1⟩ :: s.threadQueue ∧
      (∀ u ∈ s.threadQueue, ¬ (s.UpgradeLock).1.WaitAdmissible u.condId u.op) ∧
      (∀ s2 : Read_MayWrite_Write_Lock,
        s2.threadQueue = (s.UpgradeLock).1.threadQueue →
        s2.CanWriterAcquireLock = true →
        s2.UpgradeLockFinish.isWriterHolding = true ∧
        s2.UpgradeLockFinish.threadQueue = s.threadQueue)) := by
  refine ⟨?_, ?_, ?_⟩
  · by_cases hcan : ({s with
        readersNumber := s.readersNumber - 1,
        mayWriterThreadId := none} :
          Read_MayWrite_Write_Lock).CanWriterAcquireLock = true
    · simp [UpgradeLock, hcan]
    · simp [UpgradeLock, hcan, InsertConditionTuple]
  · intro hr1
    have hcan : ({s with
        readersNumber := s.readersNumber - 1,
        mayWriterThreadId := none} :
          Read_MayWrite_Write_Lock).CanWriterAcquireLock = true := by
      simp [CanWriterAcquireLock, CanMayWriterAcquireLock, CanReaderAcquireLock,
        hr1, hw]
    unfold UpgradeLock
    rw [if_pos hcan]
    exact ⟨rfl, rfl, rfl⟩
  · intro hr2
    have hcan : ¬ ({s with
        readersNumber := s.readersNumber - 1,
        mayWriterThreadId := none} :
          Read_MayWrite_Write_Lock).CanWriterAcquireLock = true := by
      simp [CanWriterAcquireLock, CanMayWriterAcquireLock, CanReaderAcquireLock]
      omega
    unfold UpgradeLock
    rw [if_neg hcan]
    refine ⟨rfl, hw, rfl, ?_, ?_⟩
    · intro u hu hadm
      rcases hadm with ⟨hhead, -⟩
      simp [InsertConditionTuple] at hhead
      have := hfresh u hu
      omega
    · intro s2 hq2 hcan2
      refine ⟨rfl, ?_⟩
      simp only [UpgradeLockFinish]
      rw [hq2]
      simp [InsertConditionTuple]

theorem C4_upgrade_priority_witness :
    (c4state.UpgradeLock).2 = true ∧
    (c4state.UpgradeLock).1.threadQueue =
      ⟨c4state.nextCondId, Operation.WRITE, 1⟩ :: c4state.threadQueue := by
  have h := C4_upgrade_priority c4state 7 rfl (by decide) rfl
    (by unfold QueueIdsBelow; decide)
  exact ⟨(h.2.2 (by decide)).1, (h.2.2 (by decide)).2.2.1⟩

/-- C6: every ReleaseSharedLock by the thread registered as may-writer both
decrements the shared-holder count and clears the may-writer identity, and
immediately afterwards CanMayWriterAcquireLock holds, so another thread can
be admitted in MAY_WRITE mode.  (The state hypothesis LockInv rules out a
simultaneously holding writer; it holds in every reachable state.)  The
ReleaseSharedLock call of InsertTail's backward walk that releases a node
just locked in MAY_WRITE is an instance: there the caller is the registered
may-writer of that node's lock. -/
theorem C6_release_shared_clears_maywriter (s : Read_MayWrite_Write_Lock)
    (t : Nat) (hinv : s.LockInv) (hmw : s.mayWriterThreadId = some t)
    (hr : 0 < s.readersNumber) :
    (s.ReleaseSharedLock t).readersNumber = s.readersNumber - 1 ∧
    (s.ReleaseSharedLock t).mayWriterThreadId = none ∧
    (s.ReleaseSharedLock t).CanMayWriterAcquireLock = true := by
  have hw : s.isWriterHolding = false := by
    rcases hwb : s.isWriterHolding with _ | _
    · rfl
    · rcases hinv hwb with ⟨h1, -⟩
      rw [hmw] at h1
      cases h1
  unfold ReleaseSharedLock
  rw [if_pos hmw]
  refine ⟨rfl, rfl, ?_⟩
  simp [CanMayWriterAcquireLock, CanReaderAcquireLock, hw]

theorem C6_release_shared_clears_maywriter_witness :
    (c6state.ReleaseSharedLock 5).readersNumber = c6state.readersNumber - 1 ∧
    (c6state.ReleaseSharedLock 5).mayWriterThreadId = none ∧
    (c6state.ReleaseSharedLock 5).CanMayWriterAcquireLock = true :=
  C6_release_shared_clears_maywriter c6state 5 (by unfold LockInv; decide) rfl
    (by decide)

theorem lockStep_preserves_inv {s s2 : Read_MayWrite_Write_Lock}
    (h : LockStep s s2) (hinv : s.LockInv) : s2.LockInv := by
  cases h with
  | lockRead q n hc =>
    intro hwr
    simp only [LockReadEffect] at hwr
    simp only [CanReaderAcquireLock, Bool.not_eq_true'] at hc
    rw [hc] at hwr
    cases hwr
  | lockMayWrite t q n hc =>
    intro hwr
    simp only [LockMayWriteEffect] at hwr
    simp only [CanMayWriterAcquireLock, CanReaderAcquireLock, Bool.and_eq_true,
      Bool.not_eq_true', decide_eq_true_eq] at hc
    rw [hc.2] at hwr
    cases hwr
  | lockWrite q n hc =>
    intro hwr
    simp only [CanWriterAcquireLock, CanMayWriterAcquireLock,
      CanReaderAcquireLock, Bool.and_eq_true, Bool.not_eq_true',
      decide_eq_true_eq] at hc
    exact ⟨hc.2.1, hc.1⟩
  | upgradeEnter t q n hmw hr =>
    intro hwr
    have hwf : s.isWriterHolding = false := by
      rcases hwb : s.isWriterHolding with _ | _
      · rfl
      · rcases hinv hwb with ⟨-, h2⟩
        omega
    simp only [UpgradeLock] at hwr ⊢
    by_cases hcan : ({s with
        readersNumber := s.readersNumber - 1,
        mayWriterThreadId := none} :
          Read_MayWrite_Write_Lock).CanWriterAcquireLock = true
    · rw [if_pos hcan] at hwr ⊢
      simp only [CanWriterAcquireLock, CanMayWriterAcquireLock,
        CanReaderAcquireLock, Bool.and_eq_true, decide_eq_true_eq] at hcan
      exact ⟨rfl, hcan.1⟩
    · rw [if_neg hcan] at hwr
      simp only [InsertConditionTuple] at hwr
      rw [hwf] at hwr
      cases hwr
  | upgradeFinish q n hc =>
    intro hwr
    simp only [CanWriterAcquireLock, CanMayWriterAcquireLock,
      CanReaderAcquireLock, Bool.and_eq_true, Bool.not_eq_true',
      decide_eq_true_eq] at hc
    exact ⟨hc.2.1, hc.1⟩
  | releaseShared t q n hr =>
    intro hwr
    have hwf : s.isWriterHolding = false := by
      rcases hwb : s.isWriterHolding with _ | _
      · rfl
      · rcases hinv hwb with ⟨-, h2⟩
        omega
    simp only [ReleaseSharedLock] at hwr
    by_cases hsel : s.mayWriterThreadId = some t
    · rw [if_pos hsel] at hwr
      rw [hwf] at hwr
      cases hwr
    · rw [if_neg hsel] at hwr
      rw [hwf] at hwr
      cases hwr
  | releaseExclusive q n hc =>
    intro hwr
    simp only [ReleaseExclusiveLock] at hwr
    cases hwr

/-- C7: in every lock state reachable by correctly used lock operations, a
held writer excludes any registered may-writer, and a held writer implies
that the shared-holder count is zero. -/
theorem C7_lock_invariant (s : Read_MayWrite_Write_Lock)
    (h : s.ReachableLock) : s.LockInv := by
  unfold ReachableLock at h
  induction h with
  | refl => intro hwr; cases hwr
  | tail hsteps hstep ih => exact lockStep_preserves_inv hstep ih

theorem C7_lock_invariant_witness :
    Read_MayWrite_Write_Lock.LockInv ⟨1, false, some 3, [], 0⟩ :=
  C7_lock_invariant ⟨1, false, some 3, [], 0⟩
    (Relation.ReflTransGen.single
      (LockStep.lockMayWrite initLock 3 [] 0 (by decide)))

end Read_MayWrite_Write_Lock

/-! ## List theorems: the sequential scenario and the read-mode advance -/

namespace ConcurrentDoublyLinkedList

/-- C1: on a freshly constructed list, executed sequentially: InsertHead 5
with data a succeeds; Search 5 succeeds and yields a; Search 6 fails;
Delete 5 succeeds; a second Delete 5 fails. -/
theorem C1_sequential_scenario :
    (initialList.InsertHead 5 'a').map (fun r => (r.1, r.2.1)) =
      some (true, s1State) ∧
    (s1State.Search 5).map (fun r => (r.1, r.2.1)) = some (true, some 'a') ∧
    (s1State.Search 6).map (fun r => r.1) = some false ∧
    (s1State.Delete 5).map (fun r => (r.1, r.2.1)) = some (true, s1StateDel) ∧
    (s1StateDel.Delete 5).map (fun r => r.1) = some false := by decide

/-- C5 counterexample: in the read-mode advance step from the node at
address 2 of s1State, the emitted lock calls are ReleaseSharedLock on the
current node FOLLOWED BY LockRead on the next node, and after the release the
thread holds no node lock at all.  This refutes both conjuncts of the claim
(acquire-then-release order, and exactly one lock held at every moment). -/
theorem C5_counterexample :
    s1State.AdvanceAndLockReadMayWrite 0 2 true =
      some (2, 1, [LockEvent.releaseShared 2, LockEvent.lockRead 1]) ∧
    procShared {2} [LockEvent.releaseShared 2] = 0 := by decide

/-- C5 (amended): during every read-mode advance step (the isRead = true path
used by Search) the traversal first releases the current node's lock and only
then acquires the next node's lock in READ, holding at most one node lock at
a time: one before the step, none between the release and the acquire, and
one (the next node's) after the step. -/
theorem C5_read_advance_order (s : ConcurrentDoublyLinkedList)
    (prev next nn : Nat) (h : (s.getNode next).nextPtr = some nn) :
    s.AdvanceAndLockReadMayWrite prev next true =
      some (next, nn, [LockEvent.releaseShared next, LockEvent.lockRead nn]) ∧
    (∀ M : Multiset Nat,
      procShared (next ::ₘ M) [LockEvent.releaseShared next] = M) ∧
    (∀ M : Multiset Nat,
      procShared (next ::ₘ M)
        [LockEvent.releaseShared next, LockEvent.lockRead nn] = nn ::ₘ M) := by
  refine ⟨?_, ?_, ?_⟩
  · simp [AdvanceAndLockReadMayWrite, h]
  · intro M
    simp [procShared, procSharedEvent]
  · intro M
    simp [procShared, procSharedEvent]

theorem C5_read_advance_order_witness :
    s1State.AdvanceAndLockReadMayWrite 0 2 true =
      some (2, 1, [LockEvent.releaseShared 2, LockEvent.lockRead 1]) :=
  (C5_read_advance_order s1State 0 2 1 (by decide)).1

end ConcurrentDoublyLinkedList

/-! ## Store and chain helper lemmas -/

namespace ConcurrentDoublyLinkedList

theorem setNode_length (s : ConcurrentDoublyLinkedList) (a : Nat) (n : Node) :
    (s.setNode a n).nodes.length = s.nodes.length := by
  simp [setNode]

theorem getNode_setNode_self (s : ConcurrentDoublyLinkedList) (a : Nat)
    (n : Node) (ha : a < s.nodes.length) : (s.setNode a n).getNode a = n := by
  simp [setNode, getNode, List.getD_eq_getElem?_getD, List.getElem?_set_self, ha]

theorem getNode_setNode_ne (s : ConcurrentDoublyLinkedList) (a b : Nat)
    (n : Node) (hne : b ≠ a) : (s.setNode a n).getNode b = s.getNode b := by
  simp [setNode, getNode, List.getD_eq_getElem?_getD,
    List.getElem?_set_ne (Ne.symm hne)]

theorem getNode_append_lt (s : ConcurrentDoublyLinkedList) (nn : Node) (a : Nat)
    (ha : a < s.nodes.length) :
    ({s with nodes := s.nodes ++ [nn]} :
      ConcurrentDoublyLinkedList).getNode a = s.getNode a := by
  simp [getNode, List.getD_eq_getElem?_getD, List.getElem?_append_left ha]

theorem getNode_append_self (s : ConcurrentDoublyLinkedList) (nn : Node) :
    ({s with nodes := s.nodes ++ [nn]} :
      ConcurrentDoublyLinkedList).getNode s.nodes.length = nn := by
  simp [getNode, List.getD_eq_getElem?_getD]

theorem nodup_lt_length {l : List Nat} {n : Nat} (hnd : l.Nodup)
    (hb : ∀ a ∈ l, a < n) : l.length ≤ n := by
  have h1 : l.toFinset.card = l.length := List.toFinset_card_of_nodup hnd
  have h2 : l.toFinset ⊆ Finset.range n := by
    intro a ha
    rw [List.mem_toFinset] at ha
    exact Finset.mem_range.mpr (hb a ha)
  have h3 := Finset.card_le_card h2
  rw [h1, Finset.card_range] at h3
  exact h3

theorem chain'_imp_of_mem {R S : Nat → Nat → Prop} :
    ∀ {l : List Nat}, List.Chain' R l →
      (∀ a ∈ l, ∀ b ∈ l, R a b → S a b) → List.Chain' S l := by
  intro l
  induction l with
  | nil => intro _ _; exact List.chain'_nil
  | cons x rest ih =>
    cases rest with
    | nil => intro _ _; simp
    | cons y rest2 =>
      intro hc himp
      rw [List.chain'_cons] at hc ⊢
      refine ⟨himp x (List.mem_cons_self x (y :: rest2)) y
        (List.mem_cons_of_mem x (List.mem_cons_self y rest2)) hc.1,
        ih hc.2 ?_⟩
      intro a ha b hb hr
      exact himp a (List.mem_cons_of_mem x ha) b (List.mem_cons_of_mem x hb) hr

theorem midtail_split {mid X Y : List Nat} {x tl : Nat}
    (h : mid ++ [tl] = X ++ x :: Y) (hx : x ≠ tl) :
    ∃ Y2, Y = Y2 ++ [tl] ∧ mid = X ++ x :: Y2 := by
  rcases List.eq_nil_or_concat Y with hY | ⟨Y2, b, hY⟩
  · subst hY
    have h2 : mid ++ [tl] = X ++ [x] := h
    obtain ⟨-, h4⟩ := List.append_inj' h2 rfl
    have hxtl : tl = x := by simpa using h4
    exact absurd hxtl.symm hx
  · subst hY
    have h2 : mid ++ [tl] = (X ++ x :: Y2) ++ [b] := by
      rw [h]; simp [List.concat_eq_append]
    obtain ⟨h3, h4⟩ := List.append_inj' h2 rfl
    have hb : tl = b := by simpa using h4
    refine ⟨Y2, ?_, h3⟩
    rw [List.concat_eq_append, hb]

theorem chain_head_split {s : ConcurrentDoublyLinkedList} {mid X Y : List Nat}
    {x : Nat} (h : s.chainOf mid = X ++ x :: Y) :
    (X = [] ∧ x = s.head ∧ mid ++ [s.tail] = Y) ∨
    (∃ X2, X = s.head :: X2 ∧ mid ++ [s.tail] = X2 ++ x :: Y) := by
  cases X with
  | nil =>
    left
    have h2 : s.head :: (mid ++ [s.tail]) = x :: Y := h
    obtain ⟨hh, ht⟩ := List.cons.inj h2
    exact ⟨rfl, hh.symm, ht⟩
  | cons h0 X2 =>
    right
    have h2 : s.head :: (mid ++ [s.tail]) = h0 :: (X2 ++ x :: Y) := h
    obtain ⟨hh, ht⟩ := List.cons.inj h2
    refine ⟨X2, ?_, ht⟩
    rw [hh]

theorem mem_midtail_of_decomp {s : ConcurrentDoublyLinkedList}
    {mid A B : List Nat} {p c : Nat} (h : s.chainOf mid = A ++ p :: c :: B) :
    c ∈ mid ++ [s.tail] := by
  rcases chain_head_split h with ⟨-, -, h3⟩ | ⟨X2, -, h3⟩
  · rw [h3]
    exact List.mem_cons_self c B
  · rw [h3]
    exact List.mem_append_right X2
      (List.mem_cons_of_mem p (List.mem_cons_self c B))

theorem head_notin_midtail {s : ConcurrentDoublyLinkedList} {mid : List Nat}
    (hnd : (s.chainOf mid).Nodup) : s.head ∉ mid ++ [s.tail] :=
  (List.nodup_cons.mp hnd).1

theorem procShared_append (M : Multiset Nat) (l1 l2 : List LockEvent) :
    procShared M (l1 ++ l2) = procShared (procShared M l1) l2 := by
  simp [procShared]

end ConcurrentDoublyLinkedList

namespace ConcurrentDoublyLinkedList

theorem findKeyLoop_spec (s : ConcurrentDoublyLinkedList) (mid : List Nat)
    (hwf : s.Wf mid) (k : Int) (isRead : Bool) :
    ∀ (B A : List Nat) (p c : Nat) (fuel : Nat),
      s.chainOf mid = A ++ p :: c :: B → B.length + 1 ≤ fuel →
      ∃ pre q2 p2 c2 B2 ev,
        findKeyLoop s k isRead fuel p c = some (p2, c2, ev) ∧
        c :: B = pre ++ c2 :: B2 ∧
        p :: pre = q2 ++ [p2] ∧
        (∀ x ∈ pre, s.nkey x < k ∧ x ≠ s.tail) ∧
        (k ≤ s.nkey c2 ∨ c2 = s.tail) ∧
        (∀ M : Multiset Nat,
          (isRead = true → procShared (c ::ₘ M) ev = c2 ::ₘ M) ∧
          (isRead = false → procShared (p ::ₘ c ::ₘ M) ev = p2 ::ₘ c2 ::ₘ M)) := by
  obtain ⟨hnd, hbd, hch, hsort, hact⟩ := hwf
  intro B
  induction B with
  | nil =>
    intro A p c fuel hdec hfuel
    have hc : c = s.tail := by
      have h1 : (s.chainOf mid).getLast? = some s.tail := by
        show (s.head :: (mid ++ [s.tail])).getLast? = some s.tail
        rw [show s.head :: (mid ++ [s.tail]) = (s.head :: mid) ++ [s.tail] from
          rfl]
        exact List.getLast?_concat _
      rw [hdec] at h1
      rw [show A ++ p :: c :: ([] : List Nat) = (A ++ [p]) ++ [c] by simp] at h1
      rw [List.getLast?_concat] at h1
      exact Option.some.inj h1
    have hterm : ¬ ((s.nkey c < k ∧ c ≠ s.tail) ∨ c = s.head) := by
      rintro (⟨-, hne⟩ | hh)
      · exact hne hc
      · rw [hh] at hc
        have h3 : s.tail ∈ mid ++ [s.tail] :=
          List.mem_append_right mid (List.mem_cons_self s.tail [])
        have h4 : s.head ∈ mid ++ [s.tail] := by rw [hc]; exact h3
        exact head_notin_midtail hnd h4
    obtain ⟨f, rfl⟩ : ∃ f, fuel = f + 1 := ⟨fuel - 1, by omega⟩
    refine ⟨[], [], p, c, [], [], ?_, rfl, rfl, by simp, Or.inr hc, ?_⟩
    · simp only [findKeyLoop]
      rw [if_neg hterm]
    · intro M
      exact ⟨fun _ => rfl, fun _ => rfl⟩
  | cons c3 B2 ih =>
    intro A p c fuel hdec hfuel
    have hcnh : c ≠ s.head := by
      intro hh
      have h1 := mem_midtail_of_decomp hdec
      rw [hh] at h1
      exact head_notin_midtail hnd h1
    by_cases hstop : s.nkey c < k ∧ c ≠ s.tail
    · have hnext : (s.getNode c).nextPtr = some c3 := by
        have hsuf : List.Chain' s.link (c :: c3 :: B2) := by
          refine hch.suffix ⟨A ++ [p], ?_⟩
          rw [hdec]
          simp
        exact (List.chain'_cons.mp hsuf).1.1
      obtain ⟨f, rfl⟩ : ∃ f, fuel = f + 1 := ⟨fuel - 1, by omega⟩
      obtain ⟨pre, q2, p2, c2, B3, ev, hres, hdec2, hq2, hpre, hc2, hproc⟩ :=
        ih (A ++ [p]) c c3 f (by rw [hdec]; simp) (by
          simp only [List.length_cons] at hfuel
          omega)
      refine ⟨c :: pre, p :: q2, p2, c2, B3, ?_, ?_, ?_, ?_, ?_, hc2, ?_⟩
      · exact (if isRead then
          [LockEvent.releaseShared c, LockEvent.lockRead c3]
          else [LockEvent.releaseShared p, LockEvent.lockMayWrite c3]) ++ ev
      · simp only [findKeyLoop]
        rw [if_pos (Or.inl hstop)]
        cases isRead with
        | true => simp [AdvanceAndLockReadMayWrite, hnext, hres]
        | false => simp [AdvanceAndLockReadMayWrite, hnext, hres]
      · rw [show (c :: pre) ++ c2 :: B3 = c :: (pre ++ c2 :: B3) from rfl,
          ← hdec2]
      · rw [show (p :: q2) ++ [p2] = p :: (q2 ++ [p2]) from rfl, ← hq2]
      · intro x hx
        rcases List.mem_cons.mp hx with hx | hx
        · rw [hx]
          exact hstop
        · exact hpre x hx
      · intro M
        constructor
        · intro hir
          subst hir
          rw [if_pos rfl]
          rw [procShared_append]
          have h1 : procShared (c ::ₘ M) [LockEvent.releaseShared c,
              LockEvent.lockRead c3] = c3 ::ₘ M := by
            simp [procShared, procSharedEvent]
          rw [h1]
          exact (hproc M).1 rfl
        · intro hir
          subst hir
          rw [if_neg Bool.false_ne_true]
          rw [procShared_append]
          have h1 : procShared (p ::ₘ c ::ₘ M) [LockEvent.releaseShared p,
              LockEvent.lockMayWrite c3] = c ::ₘ c3 ::ₘ M := by
            simp [procShared, procSharedEvent]
            exact Multiset.cons_swap c3 c M
          rw [h1]
          exact (hproc M).2 rfl
    · obtain ⟨f, rfl⟩ : ∃ f, fuel = f + 1 := ⟨fuel - 1, by omega⟩
      have hterm : ¬ ((s.nkey c < k ∧ c ≠ s.tail) ∨ c = s.head) := by
        rintro (h | hh)
        · exact hstop h
        · exact hcnh hh
      refine ⟨[], [], p, c, c3 :: B2, [], ?_, rfl, rfl, by simp, ?_, ?_⟩
      · simp only [findKeyLoop]
        rw [if_neg hterm]
      · rcases Decidable.not_and_iff_or_not.mp hstop with h | h
        · exact Or.inl (le_of_not_lt h)
        · exact Or.inr (Decidable.not_not.mp h)
      · intro M
        exact ⟨fun _ => rfl, fun _ => rfl⟩

end ConcurrentDoublyLinkedList

namespace ConcurrentDoublyLinkedList

theorem chain_length_le {s : ConcurrentDoublyLinkedList} {mid : List Nat}
    (hwf : s.Wf mid) : (s.chainOf mid).length ≤ s.nodes.length :=
  nodup_lt_length hwf.1 hwf.2.1

theorem tail_notin_mid {s : ConcurrentDoublyLinkedList} {mid : List Nat}
    (hnd : (s.chainOf mid).Nodup) : s.tail ∉ mid := by
  intro hmem
  have h1 : (mid ++ [s.tail]).Nodup := (List.nodup_cons.mp hnd).2
  exact List.disjoint_of_nodup_append h1 hmem (List.mem_cons_self s.tail [])

theorem chain_cons_decomp (s : ConcurrentDoublyLinkedList) (mid : List Nat) :
    ∃ c0 B, s.chainOf mid = [] ++ s.head :: c0 :: B ∧
      mid ++ [s.tail] = c0 :: B := by
  cases mid with
  | nil => exact ⟨s.tail, [], by simp [chainOf], by simp⟩
  | cons m0 mid2 => exact ⟨m0, mid2 ++ [s.tail], by simp [chainOf], by simp⟩

theorem tail_decomp_end {mid pre B2 : List Nat} {tl : Nat}
    (hnd : (mid ++ [tl]).Nodup) (h : mid ++ [tl] = pre ++ tl :: B2) :
    B2 = [] := by
  rcases List.eq_nil_or_concat B2 with hB | ⟨Y2, b, hB⟩
  · exact hB
  · subst hB
    exfalso
    have h2 : mid ++ [tl] = (pre ++ tl :: Y2) ++ [b] := by
      rw [h]; simp [List.concat_eq_append]
    have h3 : tl = b := by
      have e1 : (mid ++ [tl]).getLast? = some tl := List.getLast?_concat mid
      rw [h2, List.getLast?_concat] at e1
      exact (Option.some.inj e1).symm
    rw [h] at hnd
    have h4 := (List.nodup_append.mp hnd).2.1
    have h5 := (List.nodup_cons.mp h4).1
    apply h5
    rw [List.concat_eq_append, ← h3]
    exact List.mem_append_right Y2 (List.mem_cons_self tl [])

theorem candidate_eq_dup {s : ConcurrentDoublyLinkedList} {mid : List Nat}
    (hwf : s.Wf mid) {k : Int} {pre B2 : List Nat} {c2 d : Nat}
    (hmt : mid ++ [s.tail] = pre ++ c2 :: B2)
    (hpre : ∀ x ∈ pre, s.nkey x < k ∧ x ≠ s.tail)
    (hc2 : k ≤ s.nkey c2 ∨ c2 = s.tail)
    (hd : d ∈ mid) (hdk : s.nkey d = k) :
    c2 = d ∧ c2 ≠ s.tail := by
  obtain ⟨hnd, hbd, hch, hsort, hact⟩ := hwf
  have hmtnd : (mid ++ [s.tail]).Nodup := (List.nodup_cons.mp hnd).2
  have hdt : d ≠ s.tail := by
    intro hdt
    exact tail_notin_mid hnd (hdt ▸ hd)
  have hdm : d ∈ pre ++ c2 :: B2 := by
    rw [← hmt]
    exact List.mem_append_left _ hd
  rcases List.mem_append.mp hdm with hdm | hdm
  · exact absurd hdk (by have := (hpre d hdm).1; omega)
  · rcases List.mem_cons.mp hdm with hdm | hdm
    · rcases hc2 with hc2 | hc2
      · refine ⟨hdm.symm, ?_⟩
        rw [hdm] at hdt
        exact hdt
      · exact absurd (hdm.trans hc2) hdt
    · exfalso
      rcases hc2 with hc2 | hc2
      · have hc2t : c2 ≠ s.tail := by
          intro he
          have hB2 := tail_decomp_end hmtnd (he ▸ hmt)
          rw [hB2] at hdm
          cases hdm
        obtain ⟨Y2, hB2, hmid⟩ := midtail_split hmt hc2t
        have hdY : d ∈ Y2 := by
          rw [hB2] at hdm
          rcases List.mem_append.mp hdm with h | h
          · exact h
          · exact absurd (List.mem_singleton.mp h) hdt
        have hrel : s.nkey c2 < s.nkey d := by
          rw [hmid] at hsort
          have h1 := (List.pairwise_append.mp hsort).2.1
          exact (List.pairwise_cons.mp h1).1 d hdY
        omega
      · have hB2 := tail_decomp_end hmtnd (hc2 ▸ hmt)
        rw [hB2] at hdm
        cases hdm

theorem FindKey_spec_mw (s : ConcurrentDoublyLinkedList) (mid : List Nat)
    (hwf : s.Wf mid) (k : Int) (A B : List Nat) (p c0 : Nat)
    (hdec : s.chainOf mid = A ++ p :: c0 :: B) :
    ∃ pre q2 p2 c2 B2 ev,
      s.FindKey p k false = some (p2, c2, ev) ∧
      c0 :: B = pre ++ c2 :: B2 ∧
      p :: pre = q2 ++ [p2] ∧
      (∀ x ∈ pre, s.nkey x < k ∧ x ≠ s.tail) ∧
      (k ≤ s.nkey c2 ∨ c2 = s.tail) ∧
      (∀ M : Multiset Nat, procShared (p ::ₘ M) ev = p2 ::ₘ c2 ::ₘ M) := by
  have hnext : (s.getNode p).nextPtr = some c0 := by
    have hsuf : List.Chain' s.link (p :: c0 :: B) := by
      refine hwf.2.2.1.suffix ⟨A, ?_⟩
      rw [hdec]
    exact (List.chain'_cons.mp hsuf).1.1
  have hlen : (s.chainOf mid).length = A.length + B.length + 2 := by
    rw [hdec]
    simp
    omega
  have hfuel : B.length + 1 ≤ s.nodes.length + 1 := by
    have := chain_length_le hwf
    omega
  obtain ⟨pre, q2, p2, c2, B2, ev, hres, hdec2, hq2, hpre, hc2, hproc⟩ :=
    findKeyLoop_spec s mid hwf k false B A p c0 (s.nodes.length + 1) hdec hfuel
  refine ⟨pre, q2, p2, c2, B2, LockEvent.lockMayWrite c0 :: ev, ?_, hdec2, hq2,
    hpre, hc2, ?_⟩
  · simp only [FindKey]
    rw [if_neg Bool.false_ne_true]
    rw [hnext]
    simp [hres]
  · intro M
    have h1 : procShared (p ::ₘ M) (LockEvent.lockMayWrite c0 :: ev) =
        procShared (c0 ::ₘ p ::ₘ M) ev := rfl
    rw [h1, Multiset.cons_swap]
    exact (hproc M).2 rfl

theorem FindKey_spec_read (s : ConcurrentDoublyLinkedList) (mid : List Nat)
    (hwf : s.Wf mid) (k : Int) (B : List Nat) (c0 : Nat)
    (hdec : s.chainOf mid = s.head :: c0 :: B) :
    ∃ pre q2 p2 c2 B2 ev,
      s.FindKey s.head k true = some (p2, c2, ev) ∧
      c0 :: B = pre ++ c2 :: B2 ∧
      s.head :: pre = q2 ++ [p2] ∧
      (∀ x ∈ pre, s.nkey x < k ∧ x ≠ s.tail) ∧
      (k ≤ s.nkey c2 ∨ c2 = s.tail) ∧
      (∀ M : Multiset Nat, procShared (s.head ::ₘ M) ev = c2 ::ₘ M) := by
  have hnext : (s.getNode s.head).nextPtr = some c0 := by
    have hch := hwf.2.2.1
    rw [hdec] at hch
    exact (List.chain'_cons.mp hch).1.1
  have hlen : (s.chainOf mid).length = B.length + 2 := by
    rw [hdec]
    simp
  have hfuel : B.length + 1 ≤ s.nodes.length := by
    have := chain_length_le hwf
    omega
  obtain ⟨pre, q2, p2, c2, B2, ev, hres, hdec2, hq2, hpre, hc2, hproc⟩ :=
    findKeyLoop_spec s mid hwf k true B [] s.head c0 s.nodes.length hdec hfuel
  refine ⟨pre, q2, p2, c2, B2,
    [LockEvent.releaseShared s.head, LockEvent.lockRead c0] ++ ev, ?_, hdec2,
    by simpa using hq2, hpre, hc2, ?_⟩
  · simp only [FindKey]
    rw [if_pos trivial]
    show findKeyLoop s k true (s.nodes.length + 1) s.head s.head = _
    simp only [findKeyLoop]
    rw [if_pos (Or.inr trivial)]
    simp [AdvanceAndLockReadMayWrite, hnext, hres]
  · intro M
    rw [procShared_append]
    have h1 : procShared (s.head ::ₘ M)
        [LockEvent.releaseShared s.head, LockEvent.lockRead c0] = c0 ::ₘ M := by
      simp [procShared, procSharedEvent]
    rw [h1]
    exact (hproc M).1 rfl

end ConcurrentDoublyLinkedList

namespace ConcurrentDoublyLinkedList

theorem chain_pair_decomp {s : ConcurrentDoublyLinkedList} {mid D B2 : List Nat}
    {p2 c2 : Nat} (hnd : (s.chainOf mid).Nodup)
    (h : s.chainOf mid = D ++ p2 :: c2 :: B2) :
    ∃ M1 M2, mid = M1 ++ M2 ∧ s.head :: M1 = D ++ [p2] ∧
      M2 ++ [s.tail] = c2 :: B2 := by
  have hmtnd : (mid ++ [s.tail]).Nodup := (List.nodup_cons.mp hnd).2
  by_cases hct : c2 = s.tail
  · rcases chain_head_split h with ⟨hD, hp2h, hmt⟩ | ⟨X2, hD, hmt⟩
    · have hmidnil : mid = [] := by
        cases hm : mid with
        | nil => rfl
        | cons m mid2 =>
          exfalso
          rw [hm] at hmt
          obtain ⟨hm1, -⟩ := List.cons.inj hmt
          apply tail_notin_mid hnd
          rw [hm, ← hct, ← hm1]
          exact List.mem_cons_self m mid2
      subst hmidnil
      have hB2 : B2 = [] := by
        have h2 : ([] : List Nat) ++ [s.tail] = c2 :: B2 := hmt
        obtain ⟨-, hB⟩ := List.cons.inj h2
        exact hB.symm
      refine ⟨[], [], rfl, ?_, ?_⟩
      · rw [hD, hp2h]
        rfl
      · rw [hct, hB2]
        rfl
    · have hp2t : p2 ≠ s.tail := by
        intro he
        rw [he] at hmt
        have := tail_decomp_end hmtnd hmt
        cases this
      obtain ⟨Y2, hY, hmid⟩ := midtail_split hmt hp2t
      have hB2 : B2 = [] := by
        have hmt2 : mid ++ [s.tail] = (X2 ++ [p2]) ++ s.tail :: B2 := by
          rw [hmt, hct]
          simp
        exact tail_decomp_end hmtnd hmt2
      have hY2 : Y2 = [] := by
        rw [hct, hB2] at hY
        have h2 : ([] : List Nat) ++ [s.tail] = Y2 ++ [s.tail] := hY
        obtain ⟨h3, -⟩ := List.append_inj' h2 rfl
        exact h3.symm
      refine ⟨X2 ++ [p2], [], ?_, ?_, ?_⟩
      · rw [hmid, hY2]
        simp
      · rw [hD]
        simp
      · rw [hct, hB2]
        rfl
  · rcases chain_head_split h with ⟨hD, hp2h, hmt⟩ | ⟨X2, hD, hmt⟩
    · obtain ⟨Y2, hY, hmid⟩ :=
        @midtail_split mid [] B2 c2 s.tail (by exact hmt) hct
      refine ⟨[], c2 :: Y2, by simpa using hmid, ?_, ?_⟩
      · rw [hD, hp2h]
        rfl
      · rw [hY]
        simp
    · have hp2t : p2 ≠ s.tail := by
        intro he
        rw [he] at hmt
        have := tail_decomp_end hmtnd hmt
        cases this
      obtain ⟨Y2, hY, hmid⟩ := midtail_split hmt hp2t
      cases hY2m : Y2 with
      | nil =>
        exfalso
        rw [hY2m] at hY
        have h2 : c2 :: B2 = [s.tail] := by simpa using hY
        obtain ⟨h3, -⟩ := List.cons.inj h2
        exact hct h3
      | cons y Y3 =>
        rw [hY2m] at hY hmid
        have h2 := List.cons.inj hY
        refine ⟨X2 ++ [p2], c2 :: Y3, ?_, ?_, ?_⟩
        · rw [hmid, ← h2.1]
          simp
        · rw [hD]
          simp
        · rw [h2.2]
          simp

theorem InsertFromPosition_dup (s : ConcurrentDoublyLinkedList)
    (mid : List Nat) (hwf : s.Wf mid) (k : Int) (v : Char) (d : Nat)
    (hd : d ∈ mid) (hdk : s.nkey d = k) :
    ∃ ev, s.InsertFromPosition s.head k v = some (false, s, ev) ∧
      ∀ M : Multiset Nat, procShared (s.head ::ₘ M) ev = M := by
  obtain ⟨c0, B, hdec, hmt0⟩ := chain_cons_decomp s mid
  obtain ⟨pre, q2, p2, c2, B2, ev, hres, hdec2, hq2, hpre, hc2, hproc⟩ :=
    FindKey_spec_mw s mid hwf k [] B s.head c0 hdec
  obtain ⟨hc2d, hc2t⟩ :=
    candidate_eq_dup hwf (hmt0.trans hdec2) hpre hc2 hd hdk
  have hcond : ¬ ((s.getNode c2).key ≠ k ∨ c2 = s.tail) := by
    rintro (h | h)
    · apply h
      rw [hc2d]
      exact hdk
    · exact hc2t h
  refine ⟨ev ++ [LockEvent.releaseShared p2, LockEvent.releaseShared c2],
    ?_, ?_⟩
  · simp only [InsertFromPosition, hres]
    rw [if_neg hcond]
  · intro M
    rw [procShared_append, hproc M]
    simp [procShared, procSharedEvent]

theorem InsertHead_dup (s : ConcurrentDoublyLinkedList) (mid : List Nat)
    (hwf : s.Wf mid) (k : Int) (v : Char) (d : Nat) (hd : d ∈ mid)
    (hdk : s.nkey d = k) :
    ∃ ev, s.InsertHead k v = some (false, s, ev) ∧ procShared 0 ev = 0 := by
  obtain ⟨ev, hres, hproc⟩ := InsertFromPosition_dup s mid hwf k v d hd hdk
  refine ⟨LockEvent.lockMayWrite s.head :: ev, ?_, ?_⟩
  · simp only [InsertHead, hres]
  · have h1 : procShared 0 (LockEvent.lockMayWrite s.head :: ev) =
        procShared (s.head ::ₘ 0) ev := rfl
    rw [h1, hproc 0]

end ConcurrentDoublyLinkedList

namespace ConcurrentDoublyLinkedList

theorem getNode_append_ne (s : ConcurrentDoublyLinkedList) (nn : Node) (a : Nat)
    (ha : a ≠ s.nodes.length) :
    ({s with nodes := s.nodes ++ [nn]} :
      ConcurrentDoublyLinkedList).getNode a = s.getNode a := by
  rcases Nat.lt_or_ge a s.nodes.length with h | h
  · exact getNode_append_lt s nn a h
  · have h2 : s.nodes.length < a := by omega
    simp only [getNode, List.getD_eq_getElem?_getD]
    rw [List.getElem?_eq_none (by simp; omega), List.getElem?_eq_none (by omega)]

theorem mem_chain_of_mem_mid {s : ConcurrentDoublyLinkedList} {mid : List Nat}
    {x : Nat} (hx : x ∈ mid) : x ∈ s.chainOf mid :=
  List.mem_cons_of_mem s.head (List.mem_append_left [s.tail] hx)

theorem wf_of_splice (s sNew : ConcurrentDoublyLinkedList)
    (mid M1 M2 D B2 : List Nat) (p2 c2 w : Nat) (k : Int) (v : Char)
    (hwf : s.Wf mid)
    (hchainAll : s.chainOf mid = D ++ p2 :: c2 :: B2)
    (hM : mid = M1 ++ M2)
    (hM1 : s.head :: M1 = D ++ [p2])
    (hM2 : M2 ++ [s.tail] = c2 :: B2)
    (hp2k : p2 = s.head ∨ s.nkey p2 < k)
    (hkc2 : c2 = s.tail ∨ k < s.nkey c2)
    (hw : w = s.nodes.length)
    (hHead : sNew.head = s.head) (hTail : sNew.tail = s.tail)
    (hLen : sNew.nodes.length = s.nodes.length + 1)
    (hFrame : ∀ a, a ≠ p2 → a ≠ c2 → a ≠ w → sNew.getNode a = s.getNode a)
    (hP2 : sNew.getNode p2 = {s.getNode p2 with nextPtr := some w})
    (hC2 : sNew.getNode c2 = {s.getNode c2 with prevPtr := some w})
    (hW : sNew.getNode w = ⟨k, v, some p2, some c2, true⟩) :
    sNew.Wf (M1 ++ w :: M2) := by
  obtain ⟨hnd, hbd, hch, hsort, hact⟩ := hwf
  have hwfresh : ∀ a ∈ s.chainOf mid, a ≠ w := by
    intro a ha
    have := hbd a ha
    omega
  have hmidw : ∀ x ∈ mid, x ≠ w := fun x hx => hwfresh x (mem_chain_of_mem_mid hx)
  have hp2mem : p2 ∈ s.chainOf mid := by
    rw [hchainAll]
    exact List.mem_append_right D (List.mem_cons_self p2 (c2 :: B2))
  have hc2mem : c2 ∈ s.chainOf mid := by
    rw [hchainAll]
    exact List.mem_append_right D
      (List.mem_cons_of_mem p2 (List.mem_cons_self c2 B2))
  have hp2w : p2 ≠ w := hwfresh p2 hp2mem
  have hc2w : c2 ≠ w := hwfresh c2 hc2mem
  have hndAll : (D ++ p2 :: c2 :: B2).Nodup := hchainAll ▸ hnd
  have hdisj := List.disjoint_of_nodup_append hndAll
  have hndsuf : (p2 :: c2 :: B2).Nodup := (List.nodup_append.mp hndAll).2.1
  have hp2c2 : p2 ≠ c2 := by
    intro he
    exact (List.nodup_cons.mp hndsuf).1 (he ▸ List.mem_cons_self c2 B2)
  have hp2nsuf : p2 ∉ c2 :: B2 := (List.nodup_cons.mp hndsuf).1
  have hc2nin : c2 ∉ D ++ [p2] := by
    intro hmem
    rcases List.mem_append.mp hmem with h | h
    · exact hdisj h (List.mem_cons_of_mem p2 (List.mem_cons_self c2 B2))
    · exact hp2c2 (List.mem_singleton.mp h).symm
  have hlinkold : s.link p2 c2 := by
    have hsuf : List.Chain' s.link (p2 :: c2 :: B2) := by
      refine hch.suffix ⟨D, ?_⟩
      rw [hchainAll]
    exact (List.chain'_cons.mp hsuf).1
  have hNewChain : sNew.chainOf (M1 ++ w :: M2) = D ++ p2 :: w :: c2 :: B2 := by
    show sNew.head :: (M1 ++ w :: M2) ++ [sNew.tail] = _
    rw [hHead, hTail]
    calc s.head :: (M1 ++ w :: M2) ++ [s.tail]
        = (s.head :: M1) ++ w :: (M2 ++ [s.tail]) := by simp
      _ = (D ++ [p2]) ++ w :: (c2 :: B2) := by rw [hM1, hM2]
      _ = D ++ p2 :: w :: c2 :: B2 := by simp
  have hperm : List.Perm (D ++ p2 :: w :: c2 :: B2)
      (w :: (D ++ p2 :: c2 :: B2)) := by
    have h1 : D ++ p2 :: w :: c2 :: B2 = (D ++ [p2]) ++ w :: (c2 :: B2) := by
      simp
    have h2 : w :: (D ++ p2 :: c2 :: B2) = w :: ((D ++ [p2]) ++ (c2 :: B2)) := by
      simp
    rw [h1, h2]
    exact List.perm_middle
  have hnkeyFrame : ∀ a, a ≠ w → sNew.nkey a = s.nkey a := by
    intro a haw
    show (sNew.getNode a).key = (s.getNode a).key
    by_cases h1 : a = p2
    · rw [h1, hP2]
    · by_cases h2 : a = c2
      · rw [h2, hC2]
      · rw [hFrame a h1 h2 haw]
  have hnkeyW : sNew.nkey w = k := by
    show (sNew.getNode w).key = k
    rw [hW]
  have hactFrame : ∀ a, a ≠ w →
      (sNew.getNode a).isNodeActive = (s.getNode a).isNodeActive := by
    intro a haw
    by_cases h1 : a = p2
    · rw [h1, hP2]
    · by_cases h2 : a = c2
      · rw [h2, hC2]
      · rw [hFrame a h1 h2 haw]
  have hM1k : ∀ x ∈ M1, s.nkey x < k := by
    cases hM1m : M1 with
    | nil => intro x hx; exact absurd hx (List.not_mem_nil x)
    | cons m10 M12 =>
      cases hD : D with
      | nil =>
        exfalso
        rw [hM1m, hD] at hM1
        simp at hM1
      | cons d0 X2 =>
        rw [hM1m, hD] at hM1
        simp only [List.cons_append] at hM1
        have h2 := List.cons.inj hM1
        have hM1eq : m10 :: M12 = X2 ++ [p2] := h2.2
        have hp2h : p2 ≠ s.head := by
          intro he
          apply (List.nodup_cons.mp hnd).1
          have hp2mid : p2 ∈ mid := by
            rw [hM, hM1m]
            refine List.mem_append_left M2 ?_
            rw [hM1eq]
            exact List.mem_append_right X2 (List.mem_cons_self p2 [])
          rw [← he]
          exact List.mem_append_left [s.tail] hp2mid
        have hp2klt : s.nkey p2 < k := by
          rcases hp2k with h | h
          · exact absurd h hp2h
          · exact h
        intro x hx
        rw [hM1eq] at hx
        rcases List.mem_append.mp hx with hx | hx
        · have hpair : List.Pairwise (fun a b => s.nkey a < s.nkey b)
              (X2 ++ [p2]) := by
            have h3 : List.Pairwise (fun a b => s.nkey a < s.nkey b) M1 := by
              rw [hM] at hsort
              exact (List.pairwise_append.mp hsort).1
            rw [hM1m, hM1eq] at h3
            exact h3
          have h4 := (List.pairwise_append.mp hpair).2.2 x hx p2
            (List.mem_cons_self p2 [])
          omega
        · rw [List.mem_singleton.mp hx]
          exact hp2klt
  have hM2k : ∀ y ∈ M2, k < s.nkey y := by
    cases hM2m : M2 with
    | nil => intro y hy; exact absurd hy (List.not_mem_nil y)
    | cons m20 M22 =>
      rw [hM2m] at hM2
      have h2 : m20 = c2 := (List.cons.inj hM2).1
      have hc2mid : c2 ∈ mid := by
        rw [hM, hM2m, ← h2]
        exact List.mem_append_right M1 (List.mem_cons_self m20 M22)
      have hc2t : c2 ≠ s.tail := by
        intro he
        exact tail_notin_mid hnd (he ▸ hc2mid)
      have hkc2lt : k < s.nkey c2 := by
        rcases hkc2 with h | h
        · exact absurd h hc2t
        · exact h
      intro y hy
      rcases List.mem_cons.mp hy with hy | hy
      · rw [hy, h2]
        exact hkc2lt
      · have hpair : List.Pairwise (fun a b => s.nkey a < s.nkey b)
            (m20 :: M22) := by
          have h3 : List.Pairwise (fun a b => s.nkey a < s.nkey b) M2 := by
            rw [hM] at hsort
            exact (List.pairwise_append.mp hsort).2.1
          rw [hM2m] at h3
          exact h3
        have h4 := (List.pairwise_cons.mp hpair).1 y hy
        rw [h2] at h4
        omega
  have hcrossOld : ∀ x ∈ M1, ∀ y ∈ M2, s.nkey x < s.nkey y := by
    rw [hM] at hsort
    exact (List.pairwise_append.mp hsort).2.2
  refine ⟨?_, ?_, ?_, ?_, ?_⟩
  · rw [hNewChain]
    refine (List.Perm.nodup_iff hperm).mpr ?_
    rw [List.nodup_cons]
    refine ⟨?_, hndAll⟩
    intro hmem
    exact hwfresh w (by rw [hchainAll]; exact hmem) rfl
  · intro a ha
    rw [hNewChain] at ha
    rw [hLen]
    rcases List.mem_cons.mp (hperm.mem_iff.mp ha) with haw | hamem
    · omega
    · have := hbd a (by rw [hchainAll]; exact hamem)
      omega
  · rw [hNewChain]
    rw [show D ++ p2 :: w :: c2 :: B2 = (D ++ [p2]) ++ (w :: c2 :: B2) by simp]
    rw [List.chain'_append]
    refine ⟨?_, ?_, ?_⟩
    · have hpref : List.Chain' s.link (D ++ [p2]) := by
        refine hch.prefix ?_
        rw [hchainAll]
        exact ⟨c2 :: B2, by simp⟩
      refine chain'_imp_of_mem hpref ?_
      intro a ha b hb hab
      by_cases hap : a = p2
      · exfalso
        rw [hap] at hab
        have hbc : b = c2 :=
          (Option.some.inj (hlinkold.1.symm.trans hab.1)).symm
        exact hc2nin (hbc ▸ hb)
      · have hac : a ≠ c2 := fun he => hc2nin (he ▸ ha)
        have haw2 : a ≠ w := by
          refine hwfresh a ?_
          rw [hchainAll]
          rcases List.mem_append.mp ha with h | h
          · exact List.mem_append_left (p2 :: c2 :: B2) h
          · rw [List.mem_singleton.mp h]
            exact List.mem_append_right D (List.mem_cons_self p2 (c2 :: B2))
        have hbc : b ≠ c2 := fun he => hc2nin (he ▸ hb)
        have hbw : b ≠ w := by
          refine hwfresh b ?_
          rw [hchainAll]
          rcases List.mem_append.mp hb with h | h
          · exact List.mem_append_left (p2 :: c2 :: B2) h
          · rw [List.mem_singleton.mp h]
            exact List.mem_append_right D (List.mem_cons_self p2 (c2 :: B2))
        constructor
        · rw [hFrame a hap hac haw2]
          exact hab.1
        · by_cases hbp : b = p2
          · rw [hbp, hP2]
            rw [hbp] at hab
            exact hab.2
          · rw [hFrame b hbp hbc hbw]
            exact hab.2
    · rw [List.chain'_cons]
      constructor
      · constructor
        · rw [hW]
        · rw [hC2]
      · have hsuf : List.Chain' s.link (c2 :: B2) := by
          refine hch.suffix ⟨D ++ [p2], ?_⟩
          rw [hchainAll]
          simp
        refine chain'_imp_of_mem hsuf ?_
        intro a ha b hb hab
        by_cases hbc : b = c2
        · exfalso
          rw [hbc] at hab
          have hap : a = p2 :=
            (Option.some.inj (hlinkold.2.symm.trans hab.2)).symm
          exact hp2nsuf (hap ▸ ha)
        · have hbp : b ≠ p2 := fun he => hp2nsuf (he ▸ hb)
          have hbw : b ≠ w := by
            refine hwfresh b ?_
            rw [hchainAll]
            exact List.mem_append_right D (List.mem_cons_of_mem p2 hb)
          have haw2 : a ≠ w := by
            refine hwfresh a ?_
            rw [hchainAll]
            exact List.mem_append_right D (List.mem_cons_of_mem p2 ha)
          constructor
          · by_cases hac : a = c2
            · rw [hac, hC2]
              rw [hac] at hab
              exact hab.1
            · have hap : a ≠ p2 := fun he => hp2nsuf (he ▸ ha)
              rw [hFrame a hap hac haw2]
              exact hab.1
          · rw [hFrame b hbp hbc hbw]
            exact hab.2
    · intro x hx y hy
      rw [List.getLast?_concat] at hx
      have hxp : x = p2 := by
        simp only [Option.mem_def] at hx
        exact (Option.some.inj hx).symm
      have hyw : y = w := by
        simp only [List.head?_cons, Option.mem_def] at hy
        exact (Option.some.inj hy).symm
      rw [hxp, hyw]
      constructor
      · rw [hP2]
      · rw [hW]
  · rw [List.pairwise_append]
    refine ⟨?_, ?_, ?_⟩
    · have h1 : List.Pairwise (fun a b => s.nkey a < s.nkey b) M1 := by
        rw [hM] at hsort
        exact (List.pairwise_append.mp hsort).1
      refine List.Pairwise.imp_of_mem ?_ h1
      intro a b ha hb hab
      rw [hnkeyFrame a (hmidw a (by rw [hM]; exact List.mem_append_left M2 ha)),
        hnkeyFrame b (hmidw b (by rw [hM]; exact List.mem_append_left M2 hb))]
      exact hab
    · rw [List.pairwise_cons]
      constructor
      · intro y hy
        rw [hnkeyW,
          hnkeyFrame y (hmidw y (by rw [hM]; exact List.mem_append_right M1 hy))]
        exact hM2k y hy
      · have h1 : List.Pairwise (fun a b => s.nkey a < s.nkey b) M2 := by
          rw [hM] at hsort
          exact (List.pairwise_append.mp hsort).2.1
        refine List.Pairwise.imp_of_mem ?_ h1
        intro a b ha hb hab
        rw [hnkeyFrame a
            (hmidw a (by rw [hM]; exact List.mem_append_right M1 ha)),
          hnkeyFrame b
            (hmidw b (by rw [hM]; exact List.mem_append_right M1 hb))]
        exact hab
    · intro x hx y hy
      rcases List.mem_cons.mp hy with hyw | hym
      · rw [hyw, hnkeyW,
          hnkeyFrame x (hmidw x (by rw [hM]; exact List.mem_append_left M2 hx))]
        exact hM1k x hx
      · rw [hnkeyFrame x
            (hmidw x (by rw [hM]; exact List.mem_append_left M2 hx)),
          hnkeyFrame y
            (hmidw y (by rw [hM]; exact List.mem_append_right M1 hym))]
        exact hcrossOld x hx y hym
  · intro a ha
    rw [hNewChain] at ha
    rcases List.mem_cons.mp (hperm.mem_iff.mp ha) with haw | hamem
    · rw [haw, hW]
    · have haw2 : a ≠ w := hwfresh a (by rw [hchainAll]; exact hamem)
      rw [hactFrame a haw2]
      exact hact a (by rw [hchainAll]; exact hamem)

end ConcurrentDoublyLinkedList

namespace ConcurrentDoublyLinkedList

theorem InsertFromPosition_insert (s : ConcurrentDoublyLinkedList)
    (mid : List Nat) (hwf : s.Wf mid) (k : Int) (v : Char)
    (A B : List Nat) (p c0 : Nat)
    (hdec : s.chainOf mid = A ++ p :: c0 :: B)
    (hp : p = s.head ∨ s.nkey p < k)
    (habs : ∀ d ∈ mid, s.nkey d ≠ k) :
    ∃ s2 mid2 ev, s.InsertFromPosition p k v = some (true, s2, ev) ∧
      s2.Wf mid2 := by
  obtain ⟨pre, q2, p2, c2, B2, ev, hres, hdec2, hq2, hpre, hc2, hproc⟩ :=
    FindKey_spec_mw s mid hwf k A B p c0 hdec
  have hchainAll : s.chainOf mid = (A ++ q2) ++ p2 :: c2 :: B2 := by
    rw [hdec]
    calc A ++ p :: c0 :: B = A ++ p :: (pre ++ c2 :: B2) := by rw [hdec2]
      _ = A ++ (p :: pre) ++ c2 :: B2 := by simp
      _ = A ++ (q2 ++ [p2]) ++ c2 :: B2 := by rw [hq2]
      _ = (A ++ q2) ++ p2 :: c2 :: B2 := by simp
  have hc2memmt : c2 ∈ mid ++ [s.tail] := mem_midtail_of_decomp hchainAll
  have hc2mid : c2 ≠ s.tail → c2 ∈ mid := by
    intro hct
    rcases List.mem_append.mp hc2memmt with h | h
    · exact h
    · exact absurd (List.mem_singleton.mp h) hct
  have hcond : (s.getNode c2).key ≠ k ∨ c2 = s.tail := by
    by_cases hct : c2 = s.tail
    · exact Or.inr hct
    · exact Or.inl (habs c2 (hc2mid hct))
  have hp2mem : p2 ∈ s.chainOf mid := by
    rw [hchainAll]
    exact List.mem_append_right _ (List.mem_cons_self p2 (c2 :: B2))
  have hc2mem : c2 ∈ s.chainOf mid := by
    rw [hchainAll]
    exact List.mem_append_right _
      (List.mem_cons_of_mem p2 (List.mem_cons_self c2 B2))
  have hp2lt : p2 < s.nodes.length := hwf.2.1 p2 hp2mem
  have hc2lt : c2 < s.nodes.length := hwf.2.1 c2 hc2mem
  have hp2c2 : p2 ≠ c2 := by
    have hndAll : ((A ++ q2) ++ p2 :: c2 :: B2).Nodup := hchainAll ▸ hwf.1
    have h2 := (List.nodup_append.mp hndAll).2.1
    exact fun he => (List.nodup_cons.mp h2).1 (he ▸ List.mem_cons_self c2 B2)
  have hp2k : p2 = s.head ∨ s.nkey p2 < k := by
    have hp2pre : p2 ∈ p :: pre := by
      rw [hq2]
      exact List.mem_append_right q2 (List.mem_cons_self p2 [])
    rcases List.mem_cons.mp hp2pre with h | h
    · rw [h]
      exact hp
    · exact Or.inr (hpre p2 h).1
  have hkc2 : c2 = s.tail ∨ k < s.nkey c2 := by
    by_cases hct : c2 = s.tail
    · exact Or.inl hct
    · right
      rcases hc2 with h | h
      · have h2 := habs c2 (hc2mid hct)
        omega
      · exact absurd h hct
  obtain ⟨M1, M2, hM, hM1, hM2⟩ := chain_pair_decomp hwf.1 hchainAll
  refine ⟨s.spliceNewNode p2 c2 k v, M1 ++ s.nodes.length :: M2,
    ev ++ [LockEvent.upgradeLock p2, LockEvent.upgradeLock c2,
      LockEvent.releaseExclusive p2, LockEvent.releaseExclusive c2], ?_, ?_⟩
  · simp only [InsertFromPosition, hres]
    rw [if_pos hcond]
  · apply wf_of_splice s (s.spliceNewNode p2 c2 k v) mid M1 M2 (A ++ q2) B2
      p2 c2 s.nodes.length k v hwf hchainAll hM hM1 hM2 hp2k hkc2 rfl
    · rfl
    · rfl
    · simp [spliceNewNode, setNode]
    · intro a h1 h2 h3
      simp only [spliceNewNode]
      rw [getNode_setNode_ne _ _ _ _ h2, getNode_setNode_ne _ _ _ _ h1,
        getNode_append_ne s _ a h3]
    · simp only [spliceNewNode]
      rw [getNode_setNode_ne _ _ _ _ hp2c2,
        getNode_setNode_self _ _ _ (by simp [setNode]; omega),
        getNode_append_lt s _ p2 hp2lt]
    · simp only [spliceNewNode]
      rw [getNode_setNode_self _ _ _ (by simp [setNode]; omega),
        getNode_setNode_ne _ _ _ _ (Ne.symm hp2c2),
        getNode_append_lt s _ c2 hc2lt]
    · simp only [spliceNewNode]
      rw [getNode_setNode_ne _ _ _ _ (by omega : s.nodes.length ≠ c2),
        getNode_setNode_ne _ _ _ _ (by omega : s.nodes.length ≠ p2)]
      exact getNode_append_self s _

end ConcurrentDoublyLinkedList

namespace ConcurrentDoublyLinkedList

theorem chainAll_of_walk {s : ConcurrentDoublyLinkedList}
    {mid A B pre q2 B2 : List Nat} {p c0 p2 c2 : Nat}
    (hdec : s.chainOf mid = A ++ p :: c0 :: B)
    (hdec2 : c0 :: B = pre ++ c2 :: B2)
    (hq2 : p :: pre = q2 ++ [p2]) :
    s.chainOf mid = (A ++ q2) ++ p2 :: c2 :: B2 := by
  rw [hdec]
  calc A ++ p :: c0 :: B = A ++ p :: (pre ++ c2 :: B2) := by rw [hdec2]
    _ = A ++ (p :: pre) ++ c2 :: B2 := by simp
    _ = A ++ (q2 ++ [p2]) ++ c2 :: B2 := by rw [hq2]
    _ = (A ++ q2) ++ p2 :: c2 :: B2 := by simp

theorem wf_of_unsplice (s sNew : ConcurrentDoublyLinkedList)
    (mid M1 M2 D B3 : List Nat) (p2 d nx : Nat)
    (hwf : s.Wf mid)
    (hchainAll : s.chainOf mid = D ++ p2 :: d :: nx :: B3)
    (hM : mid = M1 ++ d :: M2)
    (hM1 : s.head :: M1 = D ++ [p2])
    (hM2 : M2 ++ [s.tail] = nx :: B3)
    (hHead : sNew.head = s.head) (hTail : sNew.tail = s.tail)
    (hLen : sNew.nodes.length = s.nodes.length)
    (hFrame : ∀ a, a ≠ p2 → a ≠ nx → a ≠ d → sNew.getNode a = s.getNode a)
    (hP2 : sNew.getNode p2 = {s.getNode p2 with nextPtr := some nx})
    (hNx : sNew.getNode nx = {s.getNode nx with prevPtr := some p2})
    (hDel : sNew.getNode d = {s.getNode d with isNodeActive := false}) :
    sNew.Wf (M1 ++ M2) := by
  obtain ⟨hnd, hbd, hch, hsort, hact⟩ := hwf
  have hndAll : (D ++ p2 :: d :: nx :: B3).Nodup := hchainAll ▸ hnd
  have hdisj := List.disjoint_of_nodup_append hndAll
  have hndsuf : (p2 :: d :: nx :: B3).Nodup := (List.nodup_append.mp hndAll).2.1
  have hp2nsuf : p2 ∉ d :: nx :: B3 := (List.nodup_cons.mp hndsuf).1
  have hndsuf2 : (d :: nx :: B3).Nodup := (List.nodup_cons.mp hndsuf).2
  have hdnsuf : d ∉ nx :: B3 := (List.nodup_cons.mp hndsuf2).1
  have hp2d : p2 ≠ d := by
    intro he
    apply hp2nsuf
    rw [he]
    exact List.mem_cons_self d (nx :: B3)
  have hp2nx : p2 ≠ nx := by
    intro he
    apply hp2nsuf
    rw [he]
    exact List.mem_cons_of_mem d (List.mem_cons_self nx B3)
  have hdnx : d ≠ nx := by
    intro he
    apply hdnsuf
    rw [he]
    exact List.mem_cons_self nx B3
  have hdinD : d ∉ D ++ [p2] := by
    intro hmem
    rcases List.mem_append.mp hmem with h | h
    · exact hdisj h (List.mem_cons_of_mem p2 (List.mem_cons_self d (nx :: B3)))
    · exact hp2d (List.mem_singleton.mp h).symm
  have hnxinD : nx ∉ D ++ [p2] := by
    intro hmem
    rcases List.mem_append.mp hmem with h | h
    · exact hdisj h (List.mem_cons_of_mem p2
        (List.mem_cons_of_mem d (List.mem_cons_self nx B3)))
    · exact hp2nx (List.mem_singleton.mp h).symm
  have hlinkpd : s.link p2 d := by
    have hsuf : List.Chain' s.link (p2 :: d :: nx :: B3) := by
      refine hch.suffix ⟨D, ?_⟩
      rw [hchainAll]
    exact (List.chain'_cons.mp hsuf).1
  have hlinkdnx : s.link d nx := by
    have hsuf : List.Chain' s.link (d :: nx :: B3) := by
      refine hch.suffix ⟨D ++ [p2], ?_⟩
      rw [hchainAll]
      simp
    exact (List.chain'_cons.mp hsuf).1
  have hNewChain : sNew.chainOf (M1 ++ M2) = D ++ p2 :: nx :: B3 := by
    show sNew.head :: (M1 ++ M2) ++ [sNew.tail] = _
    rw [hHead, hTail]
    calc s.head :: (M1 ++ M2) ++ [s.tail]
        = (s.head :: M1) ++ (M2 ++ [s.tail]) := by simp
      _ = (D ++ [p2]) ++ (nx :: B3) := by rw [hM1, hM2]
      _ = D ++ p2 :: nx :: B3 := by simp
  have hsub : List.Sublist (D ++ p2 :: nx :: B3) (D ++ p2 :: d :: nx :: B3) := by
    refine List.Sublist.append_left ?_ D
    refine List.Sublist.cons₂ p2 ?_
    exact List.Sublist.cons d (List.Sublist.refl (nx :: B3))
  have hkeyFrame : ∀ a, (sNew.getNode a).key = (s.getNode a).key := by
    intro a
    by_cases h1 : a = p2
    · rw [h1, hP2]
    · by_cases h2 : a = nx
      · rw [h2, hNx]
      · by_cases h3 : a = d
        · rw [h3, hDel]
        · rw [hFrame a h1 h2 h3]
  have hactFrame : ∀ a, a ≠ d →
      (sNew.getNode a).isNodeActive = (s.getNode a).isNodeActive := by
    intro a had
    by_cases h1 : a = p2
    · rw [h1, hP2]
    · by_cases h2 : a = nx
      · rw [h2, hNx]
      · rw [hFrame a h1 h2 had]
  have hdnotnew : d ∉ D ++ p2 :: nx :: B3 := by
    intro hmem
    rcases List.mem_append.mp hmem with h | h
    · exact hdisj h (List.mem_cons_of_mem p2 (List.mem_cons_self d (nx :: B3)))
    · rcases List.mem_cons.mp h with h | h
      · exact hp2d h.symm
      · exact hdnsuf h
  refine ⟨?_, ?_, ?_, ?_, ?_⟩
  · rw [hNewChain]
    exact hndAll.sublist hsub
  · intro a ha
    rw [hNewChain] at ha
    rw [hLen]
    refine hbd a ?_
    rw [hchainAll]
    exact hsub.mem ha
  · rw [hNewChain]
    rw [show D ++ p2 :: nx :: B3 = (D ++ [p2]) ++ (nx :: B3) by simp]
    rw [List.chain'_append]
    refine ⟨?_, ?_, ?_⟩
    · have hpref : List.Chain' s.link (D ++ [p2]) := by
        refine hch.prefix ?_
        rw [hchainAll]
        exact ⟨d :: nx :: B3, by simp⟩
      refine chain'_imp_of_mem hpref ?_
      intro a ha b hb hab
      by_cases hap : a = p2
      · exfalso
        rw [hap] at hab
        have hbd2 : b = d := (Option.some.inj (hlinkpd.1.symm.trans hab.1)).symm
        exact hdinD (hbd2 ▸ hb)
      · have hanx : a ≠ nx := fun he => hnxinD (he ▸ ha)
        have had : a ≠ d := fun he => hdinD (he ▸ ha)
        have hbnx : b ≠ nx := fun he => hnxinD (he ▸ hb)
        have hbdd : b ≠ d := fun he => hdinD (he ▸ hb)
        constructor
        · rw [hFrame a hap hanx had]
          exact hab.1
        · by_cases hbp : b = p2
          · rw [hbp, hP2]
            rw [hbp] at hab
            exact hab.2
          · rw [hFrame b hbp hbnx hbdd]
            exact hab.2
    · have hsuf : List.Chain' s.link (nx :: B3) := by
        refine hch.suffix ⟨D ++ [p2, d], ?_⟩
        rw [hchainAll]
        simp
      refine chain'_imp_of_mem hsuf ?_
      intro a ha b hb hab
      have hanp2 : a ≠ p2 := fun he => hp2nsuf
        (he ▸ List.mem_cons_of_mem d ha)
      have hand : a ≠ d := fun he => hdnsuf (he ▸ ha)
      have hbnp2 : b ≠ p2 := fun he => hp2nsuf
        (he ▸ List.mem_cons_of_mem d hb)
      have hbnd : b ≠ d := fun he => hdnsuf (he ▸ hb)
      by_cases hbnx : b = nx
      · exfalso
        rw [hbnx] at hab
        have hadd : a = d := (Option.some.inj (hlinkdnx.2.symm.trans hab.2)).symm
        exact hand hadd
      · constructor
        · by_cases hanx : a = nx
          · rw [hanx, hNx]
            rw [hanx] at hab
            exact hab.1
          · rw [hFrame a hanp2 hanx hand]
            exact hab.1
        · rw [hFrame b hbnp2 hbnx hbnd]
          exact hab.2
    · intro x hx y hy
      rw [List.getLast?_concat] at hx
      have hxp : x = p2 := by
        simp only [Option.mem_def] at hx
        exact (Option.some.inj hx).symm
      have hyn : y = nx := by
        simp only [List.head?_cons, Option.mem_def] at hy
        exact (Option.some.inj hy).symm
      rw [hxp, hyn]
      constructor
      · rw [hP2]
      · rw [hNx]
  · have h1 : List.Pairwise (fun a b => s.nkey a < s.nkey b) (M1 ++ M2) := by
      rw [hM] at hsort
      refine hsort.sublist ?_
      refine List.Sublist.append_left ?_ M1
      exact List.Sublist.cons d (List.Sublist.refl M2)
    refine List.Pairwise.imp_of_mem ?_ h1
    intro a b ha hb hab
    show (sNew.getNode a).key < (sNew.getNode b).key
    rw [hkeyFrame a, hkeyFrame b]
    exact hab
  · intro a ha
    rw [hNewChain] at ha
    have had : a ≠ d := fun he => hdnotnew (he ▸ ha)
    rw [hactFrame a had]
    refine hact a ?_
    rw [hchainAll]
    exact hsub.mem ha

end ConcurrentDoublyLinkedList

namespace ConcurrentDoublyLinkedList

theorem Delete_found (s : ConcurrentDoublyLinkedList) (mid : List Nat)
    (hwf : s.Wf mid) (k : Int) (d : Nat) (hd : d ∈ mid) (hdk : s.nkey d = k) :
    ∃ p2 nx M1 M2 ev,
      s.Delete k = some (true, s.spliceOutNode p2 d nx, ev) ∧
      (s.getNode d).prevPtr = some p2 ∧
      (s.getNode d).nextPtr = some nx ∧
      mid = M1 ++ d :: M2 ∧
      (s.spliceOutNode p2 d nx).Wf (M1 ++ M2) ∧
      (s.spliceOutNode p2 d nx).getNode d =
        {s.getNode d with isNodeActive := false} ∧
      (s.spliceOutNode p2 d nx).getNode p2 =
        {s.getNode p2 with nextPtr := some nx} ∧
      (s.spliceOutNode p2 d nx).getNode nx =
        {s.getNode nx with prevPtr := some p2} ∧
      (∀ a, a ≠ p2 → a ≠ nx → a ≠ d →
        (s.spliceOutNode p2 d nx).getNode a = s.getNode a) ∧
      (s.spliceOutNode p2 d nx).nodes.length = s.nodes.length := by
  obtain ⟨c0, B, hdec, hmt0⟩ := chain_cons_decomp s mid
  obtain ⟨pre, q2, p2, c2, B2, ev, hres, hdec2, hq2, hpre, hc2w, hproc⟩ :=
    FindKey_spec_mw s mid hwf k [] B s.head c0 hdec
  obtain ⟨hc2d, hc2t⟩ :=
    candidate_eq_dup hwf (hmt0.trans hdec2) hpre hc2w hd hdk
  subst hc2d
  have hchainAll : s.chainOf mid = ([] ++ q2) ++ p2 :: c2 :: B2 :=
    chainAll_of_walk hdec hdec2 hq2
  obtain ⟨M1, M2x, hM, hM1, hM2x⟩ := chain_pair_decomp hwf.1 hchainAll
  obtain ⟨M2, hM2m⟩ : ∃ M2, M2x = c2 :: M2 := by
    cases hM2xm : M2x with
    | nil =>
      exfalso
      rw [hM2xm] at hM2x
      have h2 : s.tail = c2 := (List.cons.inj hM2x).1
      exact hc2t h2.symm
    | cons m2 M2r =>
      rw [hM2xm] at hM2x
      have h2 : m2 = c2 := (List.cons.inj hM2x).1
      exact ⟨M2r, by rw [h2]⟩
  rw [hM2m] at hM hM2x
  have hM2 : M2 ++ [s.tail] = B2 := (List.cons.inj hM2x).2
  obtain ⟨nx, B3, hB2⟩ : ∃ nx B3, M2 ++ [s.tail] = nx :: B3 := by
    cases M2 with
    | nil => exact ⟨s.tail, [], rfl⟩
    | cons m3 M4 => exact ⟨m3, M4 ++ [s.tail], rfl⟩
  have hchainAll2 : s.chainOf mid = q2 ++ p2 :: c2 :: nx :: B3 := by
    rw [hchainAll, ← hM2, hB2]
    simp
  have hndAll : (q2 ++ p2 :: c2 :: nx :: B3).Nodup := hchainAll2 ▸ hwf.1
  have hndsuf : (p2 :: c2 :: nx :: B3).Nodup := (List.nodup_append.mp hndAll).2.1
  have hndsuf2 : (c2 :: nx :: B3).Nodup := (List.nodup_cons.mp hndsuf).2
  have hp2c2 : p2 ≠ c2 := by
    intro he
    apply (List.nodup_cons.mp hndsuf).1
    rw [he]
    exact List.mem_cons_self c2 (nx :: B3)
  have hp2nx : p2 ≠ nx := by
    intro he
    apply (List.nodup_cons.mp hndsuf).1
    rw [he]
    exact List.mem_cons_of_mem c2 (List.mem_cons_self nx B3)
  have hc2nx : c2 ≠ nx := by
    intro he
    apply (List.nodup_cons.mp hndsuf2).1
    rw [he]
    exact List.mem_cons_self nx B3
  have hp2mem : p2 ∈ s.chainOf mid := by
    rw [hchainAll2]
    exact List.mem_append_right q2 (List.mem_cons_self p2 (c2 :: nx :: B3))
  have hc2mem : c2 ∈ s.chainOf mid := mem_chain_of_mem_mid hd
  have hnxmem : nx ∈ s.chainOf mid := by
    rw [hchainAll2]
    exact List.mem_append_right q2 (List.mem_cons_of_mem p2
      (List.mem_cons_of_mem c2 (List.mem_cons_self nx B3)))
  have hp2lt : p2 < s.nodes.length := hwf.2.1 p2 hp2mem
  have hc2lt : c2 < s.nodes.length := hwf.2.1 c2 hc2mem
  have hnxlt : nx < s.nodes.length := hwf.2.1 nx hnxmem
  have hlinkpc : s.link p2 c2 := by
    have hsuf : List.Chain' s.link (p2 :: c2 :: nx :: B3) := by
      refine hwf.2.2.1.suffix ⟨q2, ?_⟩
      rw [hchainAll2]
    exact (List.chain'_cons.mp hsuf).1
  have hlinkcn : s.link c2 nx := by
    have hsuf : List.Chain' s.link (c2 :: nx :: B3) := by
      refine hwf.2.2.1.suffix ⟨q2 ++ [p2], ?_⟩
      rw [hchainAll2]
      simp
    exact (List.chain'_cons.mp hsuf).1
  have hfr : ∀ a, a ≠ p2 → a ≠ nx → a ≠ c2 →
      (s.spliceOutNode p2 c2 nx).getNode a = s.getNode a := by
    intro a h1 h2 h3
    simp only [spliceOutNode]
    rw [getNode_setNode_ne _ _ _ _ h3, getNode_setNode_ne _ _ _ _ h2,
      getNode_setNode_ne _ _ _ _ h1]
  have hgp2 : (s.spliceOutNode p2 c2 nx).getNode p2 =
      {s.getNode p2 with nextPtr := some nx} := by
    simp only [spliceOutNode]
    rw [getNode_setNode_ne _ _ _ _ hp2c2,
      getNode_setNode_ne _ _ _ _ hp2nx,
      getNode_setNode_self _ _ _ hp2lt]
  have hgnx : (s.spliceOutNode p2 c2 nx).getNode nx =
      {s.getNode nx with prevPtr := some p2} := by
    simp only [spliceOutNode]
    rw [getNode_setNode_ne _ _ _ _ hc2nx.symm,
      getNode_setNode_self _ _ _ (by rw [setNode_length]; exact hnxlt),
      getNode_setNode_ne _ _ _ _ (Ne.symm hp2nx)]
  have hgdel : (s.spliceOutNode p2 c2 nx).getNode c2 =
      {s.getNode c2 with isNodeActive := false} := by
    simp only [spliceOutNode]
    rw [getNode_setNode_self _ _ _
        (by rw [setNode_length, setNode_length]; exact hc2lt),
      getNode_setNode_ne _ _ _ _ hc2nx,
      getNode_setNode_ne _ _ _ _ (Ne.symm hp2c2)]
  have hglen : (s.spliceOutNode p2 c2 nx).nodes.length = s.nodes.length := by
    simp [spliceOutNode, setNode]
  refine ⟨p2, nx, M1, M2,
    (LockEvent.lockMayWrite s.head :: ev) ++
      [LockEvent.upgradeLock p2, LockEvent.upgradeLock c2,
       LockEvent.lockWrite nx, LockEvent.releaseExclusive p2,
       LockEvent.releaseExclusive c2, LockEvent.releaseExclusive nx],
    ?_, hlinkpc.2, hlinkcn.1, hM, ?_, hgdel, hgp2,
    hgnx, hfr, hglen⟩
  · simp only [Delete, hres, hlinkcn.1]
    rw [if_pos ⟨hdk, hc2t⟩]
  · exact wf_of_unsplice s (s.spliceOutNode p2 c2 nx) mid M1 M2 q2 B3 p2 c2 nx
      hwf hchainAll2 hM hM1 hB2 rfl rfl hglen hfr hgp2 hgnx hgdel

theorem Delete_notfound (s : ConcurrentDoublyLinkedList) (mid : List Nat)
    (hwf : s.Wf mid) (k : Int) (habs : ∀ d ∈ mid, s.nkey d ≠ k) :
    ∃ ev, s.Delete k = some (false, s, ev) := by
  obtain ⟨c0, B, hdec, hmt0⟩ := chain_cons_decomp s mid
  obtain ⟨pre, q2, p2, c2, B2, ev, hres, hdec2, hq2, hpre, hc2w, hproc⟩ :=
    FindKey_spec_mw s mid hwf k [] B s.head c0 hdec
  have hchainAll : s.chainOf mid = ([] ++ q2) ++ p2 :: c2 :: B2 :=
    chainAll_of_walk hdec hdec2 hq2
  have hcond : ¬ ((s.getNode c2).key = k ∧ c2 ≠ s.tail) := by
    rintro ⟨h1, h2⟩
    have hc2mid : c2 ∈ mid := by
      rcases List.mem_append.mp (mem_midtail_of_decomp hchainAll) with h | h
      · exact h
      · exact absurd (List.mem_singleton.mp h) h2
    exact habs c2 hc2mid h1
  refine ⟨(LockEvent.lockMayWrite s.head :: ev) ++
    [LockEvent.releaseShared p2, LockEvent.releaseShared c2], ?_⟩
  simp only [Delete, hres]
  rw [if_neg hcond]

end ConcurrentDoublyLinkedList

namespace ConcurrentDoublyLinkedList

theorem insertTailLoop_spec (s : ConcurrentDoublyLinkedList) (mid : List Nat)
    (hwf : s.Wf mid) (k : Int) :
    ∀ fuel W p V, s.head :: mid = W ++ p :: V → W.length + 1 ≤ fuel →
    ∃ W2 V2 pf ev, s.insertTailLoop k fuel p = some (pf, ev) ∧
      W ++ [p] = W2 ++ pf :: V2 ∧
      (∀ x ∈ V2, k < s.nkey x ∧ x ≠ s.head) ∧
      (s.nkey pf ≤ k ∨ pf = s.head) ∧
      (∀ M : Multiset Nat, procShared (p ::ₘ M) ev = pf ::ₘ M) := by
  intro fuel
  induction fuel with
  | zero =>
    intro W p V hdec hfuel
    omega
  | succ fuel ih =>
    intro W p V hdec hfuel
    have hpmem : p ∈ s.head :: mid := by
      rw [hdec]
      exact List.mem_append_right W (List.mem_cons_self p V)
    have hpchain : p ∈ s.chainOf mid := by
      rcases List.mem_cons.mp hpmem with h | h
      · rw [h]
        exact List.mem_cons_self _ _
      · exact List.mem_cons_of_mem _ (List.mem_append_left _ h)
    have hact : (s.getNode p).isNodeActive = true := hwf.2.2.2.2 p hpchain
    by_cases hcond : (s.nkey p > k ∧ p ≠ s.head) ∨
        ¬(s.getNode p).isNodeActive = true
    · have hcond2 : s.nkey p > k ∧ p ≠ s.head := by
        rcases hcond with h | h
        · exact h
        · exact absurd hact h
      rcases List.eq_nil_or_concat W with hWnil | ⟨W3, w, hWc⟩
      · exfalso
        apply hcond2.2
        rw [hWnil] at hdec
        exact ((List.cons.inj hdec).1).symm
      · rw [List.concat_eq_append] at hWc
        subst hWc
        have hdec3 : s.head :: mid = W3 ++ w :: (p :: V) := by
          rw [hdec]
          simp
        have hchain2 : s.chainOf mid = W3 ++ w :: p :: (V ++ [s.tail]) := by
          have h0 : s.chainOf mid = (s.head :: mid) ++ [s.tail] := by
            simp [chainOf]
          rw [h0, hdec3]
          simp
        have hlink : s.link w p := by
          have hsuf : List.Chain' s.link (w :: p :: (V ++ [s.tail])) := by
            refine hwf.2.2.1.suffix ⟨W3, ?_⟩
            rw [hchain2]
          exact (List.chain'_cons.mp hsuf).1
        have hprev : (s.getNode p).prevPtr = some w := hlink.2
        have hfuel2 : W3.length + 1 ≤ fuel := by
          have : (W3 ++ [w]).length = W3.length + 1 := by simp
          omega
        obtain ⟨W2, V2, pf, ev, hres, hdec2, hV2, hpf, hproc⟩ :=
          ih W3 w (p :: V) hdec3 hfuel2
        refine ⟨W2, V2 ++ [p], pf,
          LockEvent.releaseShared p :: LockEvent.lockMayWrite w :: ev,
          ?_, ?_, ?_, hpf, ?_⟩
        · simp only [insertTailLoop]
          rw [if_pos hcond, hprev]
          simp only [hres]
        · rw [show (W3 ++ [w]) ++ [p] = W3 ++ [w] ++ [p] from rfl, hdec2]
          simp
        · intro x hx
          rcases List.mem_append.mp hx with h | h
          · exact hV2 x h
          · rw [List.mem_singleton.mp h]
            exact hcond2
        · intro M
          have e1 : procShared (p ::ₘ M)
              (LockEvent.releaseShared p :: LockEvent.lockMayWrite w :: ev) =
              procShared (w ::ₘ ((p ::ₘ M).erase p)) ev := rfl
          rw [e1, Multiset.erase_cons_head, hproc M]
    · refine ⟨W, [], p, [], ?_, by simp, by simp, ?_, ?_⟩
      · simp only [insertTailLoop]
        rw [if_neg hcond]
      · push_neg at hcond
        rcases lt_or_le k (s.nkey p) with h | h
        · exact Or.inr (hcond.1 h)
        · exact Or.inl h
      · intro M
        rfl

end ConcurrentDoublyLinkedList

namespace ConcurrentDoublyLinkedList

theorem pf_mem_mid_of_decomp {s : ConcurrentDoublyLinkedList}
    {mid W2 V2 : List Nat} {pf : Nat}
    (hmid2 : s.head :: mid = W2 ++ pf :: V2) (hpfh : pf ≠ s.head) :
    pf ∈ mid := by
  cases hW2 : W2 with
  | nil =>
    rw [hW2] at hmid2
    exact absurd ((List.cons.inj hmid2).1).symm hpfh
  | cons w W2x =>
    rw [hW2] at hmid2
    have h2 : mid = W2x ++ pf :: V2 := (List.cons.inj hmid2).2
    rw [h2]
    exact List.mem_append_right W2x (List.mem_cons_self pf V2)

theorem tail_start_decomp (s : ConcurrentDoublyLinkedList) (mid : List Nat)
    (hwf : s.Wf mid) :
    ∃ W0 p0, s.head :: mid = W0 ++ [p0] ∧
      (s.getNode s.tail).prevPtr = some p0 ∧
      W0.length + 1 ≤ s.nodes.length + 1 := by
  obtain ⟨W0, p0, hW0⟩ : ∃ W0 p0, s.head :: mid = W0 ++ [p0] := by
    rcases List.eq_nil_or_concat (s.head :: mid) with h | ⟨W0, p0, h⟩
    · exact absurd h (List.cons_ne_nil _ _)
    · exact ⟨W0, p0, by rw [h, List.concat_eq_append]⟩
  have hchaindec : s.chainOf mid = W0 ++ p0 :: [s.tail] := by
    have h0 : s.chainOf mid = (s.head :: mid) ++ [s.tail] := by simp [chainOf]
    rw [h0, hW0]
    simp
  have hlinkp0t : s.link p0 s.tail := by
    have hsuf : List.Chain' s.link (p0 :: [s.tail]) := by
      refine hwf.2.2.1.suffix ⟨W0, ?_⟩
      rw [hchaindec]
    exact (List.chain'_cons.mp hsuf).1
  have hfuel : W0.length + 1 ≤ s.nodes.length + 1 := by
    have h1 := chain_length_le hwf
    have h2 : (s.chainOf mid).length = W0.length + 2 := by
      rw [hchaindec]
      simp
    omega
  exact ⟨W0, p0, hW0, hlinkp0t.2, hfuel⟩

theorem InsertTail_dup (s : ConcurrentDoublyLinkedList) (mid : List Nat)
    (hwf : s.Wf mid) (k : Int) (v : Char) (d : Nat) (hd : d ∈ mid)
    (hdk : s.nkey d = k) :
    ∃ ev, s.InsertTail k v = some (false, s, ev) ∧ procShared 0 ev = 0 := by
  obtain ⟨W0, p0, hW0, hprevt, hfuel⟩ := tail_start_decomp s mid hwf
  obtain ⟨W2, V2, pf, ev1, hres, hdec2, hV2, hpf, hproc⟩ :=
    insertTailLoop_spec s mid hwf k (s.nodes.length + 1) W0 p0 [] hW0 hfuel
  have hmid2 : s.head :: mid = W2 ++ pf :: V2 := by
    rw [hW0, hdec2]
  have hheadmid : s.head ∉ mid := by
    intro hmem
    exact head_notin_midtail hwf.1 (List.mem_append_left [s.tail] hmem)
  have hpfh : pf ≠ s.head := by
    intro hpfh
    cases hW2 : W2 with
    | nil =>
      rw [hW2] at hmid2
      have h2 : mid = V2 := (List.cons.inj hmid2).2
      have h3 := (hV2 d (h2 ▸ hd)).1
      rw [hdk] at h3
      exact lt_irrefl k h3
    | cons w W2x =>
      rw [hW2] at hmid2
      apply hheadmid
      rw [← hpfh, (List.cons.inj hmid2).2]
      exact List.mem_append_right W2x (List.mem_cons_self pf V2)
  have hpfk : s.nkey pf ≤ k := by
    rcases hpf with h | h
    · exact h
    · exact absurd h hpfh
  have hdpf : d = pf := by
    have hdm2 : d ∈ W2 ++ pf :: V2 := by
      rw [← hmid2]
      exact List.mem_cons_of_mem _ hd
    rcases List.mem_append.mp hdm2 with hdW | hdc
    · exfalso
      cases hW2 : W2 with
      | nil =>
        rw [hW2] at hdW
        exact absurd hdW (List.not_mem_nil d)
      | cons w W2x =>
        rw [hW2] at hmid2 hdW
        have hwh : w = s.head := ((List.cons.inj hmid2).1).symm
        have hmidd : mid = W2x ++ pf :: V2 := (List.cons.inj hmid2).2
        have hdW2x : d ∈ W2x := by
          rcases List.mem_cons.mp hdW with h | h
          · exfalso
            apply hheadmid
            rw [← hwh, ← h]
            exact hd
          · exact h
        have hsorted := hwf.2.2.2.1
        rw [hmidd] at hsorted
        have hlt : s.nkey d < s.nkey pf :=
          (List.pairwise_append.mp hsorted).2.2 d hdW2x pf
            (List.mem_cons_self pf V2)
        rw [hdk] at hlt
        exact absurd (lt_of_lt_of_le hlt hpfk) (lt_irrefl k)
    · rcases List.mem_cons.mp hdc with h | h
      · exact h
      · exfalso
        have h3 := (hV2 d h).1
        rw [hdk] at h3
        exact lt_irrefl k h3
  have hkey : (s.getNode pf).key = k := by
    rw [← hdpf]
    exact hdk
  refine ⟨[LockEvent.lockRead s.tail, LockEvent.releaseShared s.tail,
    LockEvent.lockMayWrite p0] ++ ev1 ++ [LockEvent.releaseShared pf],
    ?_, ?_⟩
  · simp only [InsertTail, hprevt, hres]
    rw [if_pos ⟨hpfh, hkey⟩]
  · rw [procShared_append, procShared_append]
    have e0 : procShared 0 [LockEvent.lockRead s.tail,
        LockEvent.releaseShared s.tail, LockEvent.lockMayWrite p0] =
        p0 ::ₘ (0 : Multiset Nat) := by
      show p0 ::ₘ ((s.tail ::ₘ 0).erase s.tail) = p0 ::ₘ 0
      rw [Multiset.erase_cons_head]
    rw [e0, hproc 0]
    show (pf ::ₘ (0 : Multiset Nat)).erase pf = 0
    rw [Multiset.erase_cons_head]

theorem InsertTail_insert (s : ConcurrentDoublyLinkedList) (mid : List Nat)
    (hwf : s.Wf mid) (k : Int) (v : Char)
    (habs : ∀ d ∈ mid, s.nkey d ≠ k) :
    ∃ s2 mid2 ev, s.InsertTail k v = some (true, s2, ev) ∧ s2.Wf mid2 := by
  obtain ⟨W0, p0, hW0, hprevt, hfuel⟩ := tail_start_decomp s mid hwf
  obtain ⟨W2, V2, pf, ev1, hres, hdec2, hV2, hpf, hproc⟩ :=
    insertTailLoop_spec s mid hwf k (s.nodes.length + 1) W0 p0 [] hW0 hfuel
  have hmid2 : s.head :: mid = W2 ++ pf :: V2 := by
    rw [hW0, hdec2]
  have hp : pf = s.head ∨ s.nkey pf < k := by
    by_cases hpfh : pf = s.head
    · exact Or.inl hpfh
    · right
      have hpfmid : pf ∈ mid := pf_mem_mid_of_decomp hmid2 hpfh
      rcases hpf with h | h
      · exact lt_of_le_of_ne h (habs pf hpfmid)
      · exact absurd h hpfh
  have hcondneg : ¬ (pf ≠ s.head ∧ (s.getNode pf).key = k) := by
    rintro ⟨h1, h2⟩
    exact habs pf (pf_mem_mid_of_decomp hmid2 h1) h2
  obtain ⟨c0, B4, hVt⟩ : ∃ c0 B4, V2 ++ [s.tail] = c0 :: B4 := by
    cases V2 with
    | nil => exact ⟨s.tail, [], rfl⟩
    | cons v2 V3 => exact ⟨v2, V3 ++ [s.tail], rfl⟩
  have hdecIFP : s.chainOf mid = W2 ++ pf :: c0 :: B4 := by
    have h0 : s.chainOf mid = (s.head :: mid) ++ [s.tail] := by simp [chainOf]
    rw [h0, hmid2, ← hVt]
    simp
  obtain ⟨s2, mid2, ev2, hres2, hwf2⟩ :=
    InsertFromPosition_insert s mid hwf k v W2 B4 pf c0 hdecIFP hp habs
  refine ⟨s2, mid2, [LockEvent.lockRead s.tail, LockEvent.releaseShared s.tail,
    LockEvent.lockMayWrite p0] ++ ev1 ++ ev2, ?_, hwf2⟩
  simp only [InsertTail, hprevt, hres]
  rw [if_neg hcondneg]
  simp only [hres2]

end ConcurrentDoublyLinkedList

namespace ConcurrentDoublyLinkedList

theorem InsertHead_insert (s : ConcurrentDoublyLinkedList) (mid : List Nat)
    (hwf : s.Wf mid) (k : Int) (v : Char)
    (habs : ∀ d ∈ mid, s.nkey d ≠ k) :
    ∃ s2 mid2 ev, s.InsertHead k v = some (true, s2, ev) ∧ s2.Wf mid2 := by
  obtain ⟨c0, B, hdec, -⟩ := chain_cons_decomp s mid
  obtain ⟨s2, mid2, ev, hres, hwf2⟩ :=
    InsertFromPosition_insert s mid hwf k v [] B s.head c0 hdec (Or.inl rfl)
      habs
  refine ⟨s2, mid2, LockEvent.lockMayWrite s.head :: ev, ?_, hwf2⟩
  simp only [InsertHead, hres]

theorem applyOp_wf (s : ConcurrentDoublyLinkedList) (mid : List Nat)
    (hwf : s.Wf mid) (op : ListOp) : ∃ mid2, (s.applyOp op).Wf mid2 := by
  cases op with
  | insertHead k v =>
    by_cases hk : ∃ d ∈ mid, s.nkey d = k
    · obtain ⟨d, hd, hdk⟩ := hk
      obtain ⟨ev, hres, -⟩ := InsertHead_dup s mid hwf k v d hd hdk
      refine ⟨mid, ?_⟩
      simp only [applyOp, hres]
      exact hwf
    · push_neg at hk
      obtain ⟨s2, mid2, ev, hres, hwf2⟩ := InsertHead_insert s mid hwf k v hk
      refine ⟨mid2, ?_⟩
      simp only [applyOp, hres]
      exact hwf2
  | insertTail k v =>
    by_cases hk : ∃ d ∈ mid, s.nkey d = k
    · obtain ⟨d, hd, hdk⟩ := hk
      obtain ⟨ev, hres, -⟩ := InsertTail_dup s mid hwf k v d hd hdk
      refine ⟨mid, ?_⟩
      simp only [applyOp, hres]
      exact hwf
    · push_neg at hk
      obtain ⟨s2, mid2, ev, hres, hwf2⟩ := InsertTail_insert s mid hwf k v hk
      refine ⟨mid2, ?_⟩
      simp only [applyOp, hres]
      exact hwf2
  | delete k =>
    by_cases hk : ∃ d ∈ mid, s.nkey d = k
    · obtain ⟨d, hd, hdk⟩ := hk
      obtain ⟨p2, nx, M1, M2, ev, hres, -, -, -, hwf2, -⟩ :=
        Delete_found s mid hwf k d hd hdk
      refine ⟨M1 ++ M2, ?_⟩
      simp only [applyOp, hres]
      exact hwf2
    · push_neg at hk
      obtain ⟨ev, hres⟩ := Delete_notfound s mid hwf k hk
      refine ⟨mid, ?_⟩
      simp only [applyOp, hres]
      exact hwf
  | search k => exact ⟨mid, hwf⟩

theorem initialList_wf : initialList.Wf [] := by
  refine ⟨by decide, by decide, ?_, List.Pairwise.nil, by decide⟩
  exact List.chain'_cons.mpr ⟨⟨rfl, rfl⟩, List.chain'_singleton _⟩

theorem foldl_wf (ops : List ListOp) :
    ∀ s mid, s.Wf mid → ∃ mid2, (ops.foldl applyOp s).Wf mid2 := by
  induction ops with
  | nil => exact fun s mid hwf => ⟨mid, hwf⟩
  | cons op ops ih =>
    intro s mid hwf
    obtain ⟨mid2, hwf2⟩ := applyOp_wf s mid hwf op
    exact ih (s.applyOp op) mid2 hwf2

theorem run_wf (ops : List ListOp) : ∃ mid, (run ops).Wf mid :=
  foldl_wf ops initialList [] initialList_wf

end ConcurrentDoublyLinkedList

namespace ConcurrentDoublyLinkedList

theorem twoNodeList_wf : twoNodeList.Wf [2, 3] := by
  refine ⟨by decide, by decide, ?_, by decide, by decide⟩
  refine List.chain'_cons.mpr ⟨⟨rfl, rfl⟩, ?_⟩
  refine List.chain'_cons.mpr ⟨⟨rfl, rfl⟩, ?_⟩
  exact List.chain'_cons.mpr ⟨⟨rfl, rfl⟩, List.chain'_singleton _⟩

/-- C2: after every finite sequence of sequential list operations on a fresh
list there is an internal chain mid such that the address chain from the head
sentinel through mid reaches the tail sentinel, adjacent chain nodes are
doubly linked (the forward pointer of each names the next and the back
pointer of the next names it), the keys of the internal nodes strictly
increase, and every chain node is active. -/
theorem C2_quiescent_invariants (ops : List ListOp) :
    ∃ mid, (run ops).chainOf mid =
        (run ops).head :: mid ++ [(run ops).tail] ∧
      List.Chain' (fun a b => ((run ops).getNode a).nextPtr = some b ∧
        ((run ops).getNode b).prevPtr = some a) ((run ops).chainOf mid) ∧
      List.Pairwise (fun a b =>
        ((run ops).getNode a).key < ((run ops).getNode b).key) mid ∧
      ∀ a ∈ (run ops).chainOf mid,
        ((run ops).getNode a).isNodeActive = true := by
  obtain ⟨mid, hwf⟩ := run_wf ops
  exact ⟨mid, rfl, hwf.2.2.1, hwf.2.2.2.1, hwf.2.2.2.2⟩

/-- C8 counterexample: on the well-formed two-element list, the position 3
(holding key 20, active and distinct from the tail) already carries a key at
least the searched key 15, yet FindKey in may-write mode returns the tail
sentinel: the claimed postcondition "the first node at or after the start
with key at least the searched key" fails, because the source starts the
walk at the successor of the position, never at the position itself. -/
theorem C8_counterexample :
    (twoNodeList.getNode 3).isNodeActive = true ∧
    3 ≠ twoNodeList.tail ∧
    (15 : Int) ≤ twoNodeList.nkey 3 ∧
    twoNodeList.FindKey 3 15 false =
      some (3, twoNodeList.tail, [LockEvent.lockMayWrite twoNodeList.tail]) := by
  decide

/-- C8 (amended): for a may-write FindKey call from a chain position p (with
chain successor c0) on a well-formed list, the returned candidate c2 is the
first node STRICTLY AFTER p whose key is at least the searched key (every
strictly-after node passed over has a smaller key), or the tail sentinel;
c2 is never the head sentinel; and the returned position p2 is c2's chain
predecessor (p2's forward pointer names c2).  The position p itself is never
a candidate, even when its own key is at least the searched key. -/
theorem C8_findkey_mw (s : ConcurrentDoublyLinkedList) (mid : List Nat)
    (hwf : s.Wf mid) (k : Int) (A B : List Nat) (p c0 : Nat)
    (hdec : s.chainOf mid = A ++ p :: c0 :: B) :
    ∃ pre B2 p2 c2 ev,
      s.FindKey p k false = some (p2, c2, ev) ∧
      c0 :: B = pre ++ c2 :: B2 ∧
      (∀ x ∈ pre, s.nkey x < k) ∧
      (k ≤ s.nkey c2 ∨ c2 = s.tail) ∧
      c2 ≠ s.head ∧
      (s.getNode p2).nextPtr = some c2 := by
  obtain ⟨pre, q2, p2, c2, B2, ev, hres, hdec2, hq2, hpre, hc2, hproc⟩ :=
    FindKey_spec_mw s mid hwf k A B p c0 hdec
  have hchainAll : s.chainOf mid = (A ++ q2) ++ p2 :: c2 :: B2 :=
    chainAll_of_walk hdec hdec2 hq2
  have hc2h : c2 ≠ s.head := by
    intro he
    apply head_notin_midtail hwf.1
    rw [← he]
    exact mem_midtail_of_decomp hchainAll
  have hlink : s.link p2 c2 := by
    have hsuf : List.Chain' s.link (p2 :: c2 :: B2) := by
      refine hwf.2.2.1.suffix ⟨A ++ q2, ?_⟩
      rw [hchainAll]
    exact (List.chain'_cons.mp hsuf).1
  exact ⟨pre, B2, p2, c2, ev, hres, hdec2, fun x hx => (hpre x hx).1, hc2,
    hc2h, hlink.1⟩

theorem C8_findkey_mw_witness :
    twoNodeList.Wf [2, 3] ∧
    twoNodeList.chainOf [2, 3] = [] ++ 0 :: 2 :: [3, 1] ∧
    (∃ pre B2 p2 c2 ev,
      twoNodeList.FindKey 0 15 false = some (p2, c2, ev) ∧
      2 :: [3, 1] = pre ++ c2 :: B2 ∧
      (∀ x ∈ pre, twoNodeList.nkey x < 15) ∧
      ((15 : Int) ≤ twoNodeList.nkey c2 ∨ c2 = twoNodeList.tail) ∧
      c2 ≠ twoNodeList.head ∧
      (twoNodeList.getNode p2).nextPtr = some c2) :=
  ⟨twoNodeList_wf, rfl,
    C8_findkey_mw twoNodeList [2, 3] twoNodeList_wf 15 [] [3, 1] 0 2 rfl⟩

/-- C9: when the key is already present in a well-formed list, both
InsertHead and InsertTail report failure, return the state itself unchanged
(no node is spliced into the chain and no field of any node is modified),
and their lock-event traces leave no shared-mode hold behind: every lock
acquired in READ or MAY_WRITE mode during the call is released. -/
theorem C9_duplicate_rejected (s : ConcurrentDoublyLinkedList)
    (mid : List Nat) (hwf : s.Wf mid) (k : Int) (v : Char) (d : Nat)
    (hd : d ∈ mid) (hdk : s.nkey d = k) :
    (∃ ev, s.InsertHead k v = some (false, s, ev) ∧ procShared 0 ev = 0) ∧
    (∃ ev, s.InsertTail k v = some (false, s, ev) ∧ procShared 0 ev = 0) :=
  ⟨InsertHead_dup s mid hwf k v d hd hdk,
   InsertTail_dup s mid hwf k v d hd hdk⟩

theorem C9_duplicate_rejected_witness :
    twoNodeList.Wf [2, 3] ∧ 2 ∈ [2, 3] ∧ twoNodeList.nkey 2 = 10 ∧
    ((∃ ev, twoNodeList.InsertHead 10 'z' = some (false, twoNodeList, ev) ∧
        procShared 0 ev = 0) ∧
     (∃ ev, twoNodeList.InsertTail 10 'z' = some (false, twoNodeList, ev) ∧
        procShared 0 ev = 0)) :=
  ⟨twoNodeList_wf, by decide, by decide,
    C9_duplicate_rejected twoNodeList [2, 3] twoNodeList_wf 10 'z' 2
      (by decide) (by decide)⟩

/-- C10: a successful Delete of a present key modifies exactly the
predecessor's forward pointer, the successor's back pointer and the victim's
active flag.  The victim's own back and forward pointers are untouched and
still name its neighbors at unlink time, and its key and data are unchanged
(which is what InsertTail's backward walk relies on when it steps from an
unlinked node to that node's former predecessor). -/
theorem C10_delete_frame (s : ConcurrentDoublyLinkedList) (mid : List Nat)
    (hwf : s.Wf mid) (k : Int) (d : Nat) (hd : d ∈ mid)
    (hdk : s.nkey d = k) :
    ∃ p2 nx s2 ev, s.Delete k = some (true, s2, ev) ∧
      (s.getNode d).prevPtr = some p2 ∧
      (s.getNode d).nextPtr = some nx ∧
      (s2.getNode d).prevPtr = some p2 ∧
      (s2.getNode d).nextPtr = some nx ∧
      (s2.getNode d).key = (s.getNode d).key ∧
      (s2.getNode d).data = (s.getNode d).data ∧
      (s2.getNode d).isNodeActive = false ∧
      s2.getNode p2 = {s.getNode p2 with nextPtr := some nx} ∧
      s2.getNode nx = {s.getNode nx with prevPtr := some p2} ∧
      (∀ a, a ≠ p2 → a ≠ nx → a ≠ d → s2.getNode a = s.getNode a) ∧
      s2.nodes.length = s.nodes.length := by
  obtain ⟨p2, nx, M1, M2, ev, hres, hprev, hnext, hM, hwf2, hgd, hgp2, hgnx,
    hfr, hlen⟩ := Delete_found s mid hwf k d hd hdk
  refine ⟨p2, nx, s.spliceOutNode p2 d nx, ev, hres, hprev, hnext, ?_, ?_,
    ?_, ?_, ?_, hgp2, hgnx, hfr, hlen⟩
  · rw [hgd]
    exact hprev
  · rw [hgd]
    exact hnext
  · rw [hgd]
  · rw [hgd]
  · rw [hgd]

theorem C10_delete_frame_witness :
    twoNodeList.Wf [2, 3] ∧ 3 ∈ [2, 3] ∧ twoNodeList.nkey 3 = 20 ∧
    (∃ p2 nx s2 ev, twoNodeList.Delete 20 = some (true, s2, ev) ∧
      (twoNodeList.getNode 3).prevPtr = some p2 ∧
      (twoNodeList.getNode 3).nextPtr = some nx ∧
      (s2.getNode 3).prevPtr = some p2 ∧
      (s2.getNode 3).nextPtr = some nx ∧
      (s2.getNode 3).key = (twoNodeList.getNode 3).key ∧
      (s2.getNode 3).data = (twoNodeList.getNode 3).data ∧
      (s2.getNode 3).isNodeActive = false ∧
      s2.getNode p2 = {twoNodeList.getNode p2 with nextPtr := some nx} ∧
      s2.getNode nx = {twoNodeList.getNode nx with prevPtr := some p2} ∧
      (∀ a, a ≠ p2 → a ≠ nx → a ≠ 3 →
        s2.getNode a = twoNodeList.getNode a) ∧
      s2.nodes.length = twoNodeList.nodes.length) :=
  ⟨twoNodeList_wf, by decide, by decide,
    C10_delete_frame twoNodeList [2, 3] twoNodeList_wf 20 3
      (by decide) (by decide)⟩

end ConcurrentDoublyLinkedList
